import Mathlib

/-!
A shallow embedding of `kevm_pyk/solc_to_k.py`: the contract-model
assembler that turns solc compilation artifacts (ABI, deployed bytecode,
source map, storage layout) into a typed contract model with K sentences.

Python functions are translated into executable Lean definitions; code
that can raise returns `Except String` (the string is the error message),
code that can return `None` returns `Option`.  Helpers from the external
`pyk` library and the `.kevm` module (which are not part of this
repository's sources) are modelled from the specification, and each such
definition is marked in its doc comment.
-/

/-! ## Python string primitives

Character-level models of the Python string operations the source uses
(`startswith`, `endswith`, slicing, `split`, `replace`, `join`,
f-string concatenation).  They are written as structural recursions on
`List Char` so that concrete instances evaluate by `decide`/`rfl`;
Python strings index by character, as `List Char` does. -/

/-- Python `s.startswith(p)`. -/
def pyStartsWith (s p : String) : Bool := p.data.isPrefixOf s.data

/-- Python `s.endswith(p)`. -/
def pyEndsWith (s p : String) : Bool := p.data.isSuffixOf s.data

/-- Python `s[n:]`. -/
def pyDrop (s : String) (n : Nat) : String := ⟨s.data.drop n⟩

/-- Python `s[:-1]` (empty result on an empty string, as in Python). -/
def pyDropLast (s : String) : String := ⟨s.data.dropLast⟩

/-- Python `len(s)` (a character count). -/
def pyLen (s : String) : Nat := s.data.length

/-- Accumulating worker for `pySplit`. -/
def pySplitAux (sep : Char) : List Char → List Char → List (List Char)
  | [], acc => [acc.reverse]
  | c :: rest, acc =>
    if c = sep then acc.reverse :: pySplitAux sep rest []
    else pySplitAux sep rest (c :: acc)

/-- Python `s.split(sep)` for a one-character separator: splits at every
occurrence, keeping empty pieces (`"".split(c) = ['']`). -/
def pySplit (s : String) (sep : Char) : List String :=
  (pySplitAux sep s.data []).map (fun cs => ⟨cs⟩)

/-- Python `s.replace('0x', '')`: drop every (non-overlapping,
left-to-right) occurrence of `0x`. -/
def pyReplace0x : List Char → List Char
  | '0' :: 'x' :: rest => pyReplace0x rest
  | c :: rest => c :: pyReplace0x rest
  | [] => []

/-- Python `s.replace('-', '_')` (single-character replacement). -/
def pyReplaceDash (s : String) : String :=
  ⟨s.data.map (fun c => if c = '-' then '_' else c)⟩

/-- Python `sep.join(parts)`. -/
def pyJoin (sep : String) (parts : List String) : String :=
  ⟨List.intercalate sep.data (parts.map String.data)⟩

/-! ## Python `int()` on decimal and hexadecimal strings -/

/-- Digits of a Python int literal, base 10: ASCII digits with single
underscores allowed between digits (as accepted by `int()`). -/
def pyDigitsAux : List Char → Nat → Option Nat
  | [], acc => some acc
  | '_' :: c :: rest, acc =>
    if c.isDigit then pyDigitsAux rest (acc * 10 + (c.toNat - 48)) else none
  | c :: rest, acc =>
    if c.isDigit then pyDigitsAux rest (acc * 10 + (c.toNat - 48)) else none

/-- Magnitude part of a Python decimal int: must start with a digit. -/
def pyNat? : List Char → Option Nat
  | [] => none
  | c :: rest => if c.isDigit then pyDigitsAux (c :: rest) 0 else none

/-- Strip leading and trailing whitespace, as Python `int()` does. -/
def pyStrip (s : List Char) : List Char :=
  ((s.dropWhile Char.isWhitespace).reverse.dropWhile Char.isWhitespace).reverse

/-- Python `int(s)` on an ASCII string: optional surrounding whitespace,
optional sign, decimal digits with optional single underscores between
digits.  `none` models `ValueError`. -/
def pyInt? (s : String) : Option Int :=
  match pyStrip s.data with
  | '+' :: rest => (pyNat? rest).map (fun n => (n : Int))
  | '-' :: rest => (pyNat? rest).map (fun n => -(n : Int))
  | rest => (pyNat? rest).map (fun n => (n : Int))

/-- Value of one hexadecimal digit. -/
def hexVal? (c : Char) : Option Nat :=
  if c.isDigit then some (c.toNat - 48)
  else if 'a' ≤ c ∧ c ≤ 'f' then some (c.toNat - 87)
  else if 'A' ≤ c ∧ c ≤ 'F' then some (c.toNat - 55)
  else none

/-- Hex digits with single underscores between digits. -/
def pyHexDigitsAux : List Char → Nat → Option Nat
  | [], acc => some acc
  | '_' :: c :: rest, acc =>
    match hexVal? c with
    | some v => pyHexDigitsAux rest (acc * 16 + v)
    | none => none
  | c :: rest, acc =>
    match hexVal? c with
    | some v => pyHexDigitsAux rest (acc * 16 + v)
    | none => none

/-- Magnitude part of a Python base-16 int: optional `0x`/`0X` prefix,
then hex digits (an underscore may follow the prefix). -/
def pyHexNat? : List Char → Option Nat
  | [] => none
  | '0' :: 'x' :: rest => pyHexBody rest
  | '0' :: 'X' :: rest => pyHexBody rest
  | c :: rest => if (hexVal? c).isSome then pyHexDigitsAux (c :: rest) 0 else none
where
  pyHexBody : List Char → Option Nat
  | [] => none
  | '_' :: rest => match rest with
    | [] => none
    | c :: _ => if (hexVal? c).isSome then pyHexDigitsAux rest 0 else none
  | c :: rest => if (hexVal? c).isSome then pyHexDigitsAux (c :: rest) 0 else none

/-- Python `int(s, 16)`: optional whitespace, sign, optional `0x` prefix,
hex digits.  `none` models `ValueError`. -/
def pyIntHex? (s : String) : Option Int :=
  match pyStrip s.data with
  | '+' :: rest => (pyHexNat? rest).map (fun n => (n : Int))
  | '-' :: rest => (pyHexNat? rest).map (fun n => -(n : Int))
  | rest => (pyHexNat? rest).map (fun n => (n : Int))

/-! ## K term AST (mirror of pyk `KInner` as used by this module) -/

/-- Inner K terms, as built by this module: applications, variables and
tokens.  Tokens carry their payload directly (pyk stores the printed
form; the payload is the same information). -/
inductive KInner where
  | kapply (label : String) (args : List KInner)
  | kvariable (name : String)
  | kintTok (i : Int)
  | kstrTok (s : String)
  | kboolTok (b : Bool)

mutual

/-- Decidable equality on K terms. -/
def KInner.decEq : (a b : KInner) → Decidable (a = b)
  | .kapply l₁ a₁, .kapply l₂ a₂ =>
    match String.decEq l₁ l₂ with
    | isTrue hl =>
      match KInner.decEqList a₁ a₂ with
      | isTrue ha => isTrue (by rw [hl, ha])
      | isFalse ha => isFalse (fun h => ha (by cases h; rfl))
    | isFalse hl => isFalse (fun h => hl (by cases h; rfl))
  | .kvariable n₁, .kvariable n₂ =>
    match String.decEq n₁ n₂ with
    | isTrue hn => isTrue (by rw [hn])
    | isFalse hn => isFalse (fun h => hn (by cases h; rfl))
  | .kintTok i₁, .kintTok i₂ =>
    match Int.decEq i₁ i₂ with
    | isTrue hi => isTrue (by rw [hi])
    | isFalse hi => isFalse (fun h => hi (by cases h; rfl))
  | .kstrTok s₁, .kstrTok s₂ =>
    match String.decEq s₁ s₂ with
    | isTrue hs => isTrue (by rw [hs])
    | isFalse hs => isFalse (fun h => hs (by cases h; rfl))
  | .kboolTok b₁, .kboolTok b₂ =>
    match Bool.decEq b₁ b₂ with
    | isTrue hb => isTrue (by rw [hb])
    | isFalse hb => isFalse (fun h => hb (by cases h; rfl))
  | .kapply _ _, .kvariable _ | .kapply _ _, .kintTok _ | .kapply _ _, .kstrTok _
  | .kapply _ _, .kboolTok _ | .kvariable _, .kapply _ _ | .kvariable _, .kintTok _
  | .kvariable _, .kstrTok _ | .kvariable _, .kboolTok _ | .kintTok _, .kapply _ _
  | .kintTok _, .kvariable _ | .kintTok _, .kstrTok _ | .kintTok _, .kboolTok _
  | .kstrTok _, .kapply _ _ | .kstrTok _, .kvariable _ | .kstrTok _, .kintTok _
  | .kstrTok _, .kboolTok _ | .kboolTok _, .kapply _ _ | .kboolTok _, .kvariable _
  | .kboolTok _, .kintTok _ | .kboolTok _, .kstrTok _ =>
    isFalse (fun h => KInner.noConfusion h)

/-- Decidable equality on lists of K terms. -/
def KInner.decEqList : (as bs : List KInner) → Decidable (as = bs)
  | [], [] => isTrue rfl
  | x :: xs, y :: ys =>
    match KInner.decEq x y with
    | isTrue hx =>
      match KInner.decEqList xs ys with
      | isTrue hxs => isTrue (by rw [hx, hxs])
      | isFalse hxs => isFalse (fun h => hxs (by cases h; rfl))
    | isFalse hx => isFalse (fun h => hx (by cases h; rfl))
  | [], _ :: _ => isFalse (fun h => List.noConfusion h)
  | _ :: _, [] => isFalse (fun h => List.noConfusion h)

end

instance : DecidableEq KInner := KInner.decEq

/-- pyk `TRUE` (modelled: the Bool token `true`). -/
def TRUE : KInner := .kboolTok true

/-- pyk `intToken`. -/
def intToken (i : Int) : KInner := .kintTok i

/-- pyk `andBool`: right-associated conjunction over `_andBool_`,
dropping unit (`TRUE`) conjuncts; empty input gives `TRUE`
(modelled from pyk `build_assoc`). -/
def andBool (items : List KInner) : KInner :=
  match items.filter (fun t => !(t == TRUE)) with
  | [] => TRUE
  | ts => go ts
where
  go : List KInner → KInner
  | [] => TRUE
  | [t] => t
  | t :: ts => .kapply "_andBool_" [t, go ts]

namespace KEVM

/-- Modelled from the spec: `KEVM.range_uint w t` is the symbolic
constraint "unsigned value in `[0, 2^w − 1]`" (§4.2); the constructor
lives in `.kevm`, outside `src/`. -/
def range_uint (w : Int) (t : KInner) : KInner := .kapply "#rangeUInt" [.kintTok w, t]

/-- Modelled from the spec: signed `w`-bit range (§4.2). -/
def range_sint (w : Int) (t : KInner) : KInner := .kapply "#rangeSInt" [.kintTok w, t]

/-- Modelled from the spec: 160-bit address range (§4.2). -/
def range_address (t : KInner) : KInner := .kapply "#rangeAddress" [t]

/-- Modelled from the spec: value in {0, 1} (§4.2). -/
def range_bool (t : KInner) : KInner := .kapply "#rangeBool" [t]

/-- Modelled from the spec: byte-string of exactly `n` bytes (§4.2). -/
def range_bytes (n : KInner) (t : KInner) : KInner := .kapply "#rangeBytes" [n, t]

/-- Modelled from the spec: length of a byte string (§4.2, `bytes`). -/
def size_bytes (t : KInner) : KInner := .kapply "#sizeByteArray" [t]

/-- Modelled from the spec: ABI typed-argument wrapper (from `.kevm`). -/
def abi_type (type_label : String) (v : KInner) : KInner :=
  .kapply ("abi_type_" ++ type_label) [v]

/-- Modelled from the spec: ABI calldata constructor (from `.kevm`). -/
def abi_calldata (name : String) (args : List KInner) : KInner :=
  .kapply "#abiCallData" (.kstrTok name :: args)

/-- Modelled from the spec: selector of a canonical signature (from `.kevm`). -/
def abi_selector (sig : String) : KInner := .kapply "selector" [.kstrTok sig]

/-- Modelled from the spec: `#binRuntime` wrapper (from `.kevm`). -/
def bin_runtime (c : KInner) : KInner := .kapply "#binRuntime" [c]

/-- Modelled from the spec: bytecode-string parser wrapper (from `.kevm`). -/
def parse_bytestack (s : KInner) : KInner := .kapply "#parseByteStack" [s]

/-- Modelled from the spec: storage-location wrapper (from `.kevm`). -/
def loc (t : KInner) : KInner := .kapply "#loc" [t]

end KEVM

/-- Modelled from the spec (§4.2): the value domain denoted by a
generated range-predicate term, as a decidable predicate on the integer
bound to the term's variable.  `#rangeUInt w` accepts `[0, 2^w − 1]`,
`#rangeSInt w` accepts `[−2^(w−1), 2^(w−1) − 1]`, `#rangeAddress` is
`#rangeUInt 160`, `#rangeBool` accepts {0, 1}. -/
def predHolds : KInner → Int → Bool
  | .kapply "#rangeUInt" [.kintTok w, _], x =>
    decide (0 ≤ x) && decide (x ≤ 2 ^ w.toNat - 1)
  | .kapply "#rangeSInt" [.kintTok w, _], x =>
    decide (-(2 ^ (w.toNat - 1)) ≤ x) && decide (x ≤ 2 ^ (w.toNat - 1) - 1)
  | .kapply "#rangeAddress" [_], x =>
    decide (0 ≤ x) && decide (x ≤ 2 ^ 160 - 1)
  | .kapply "#rangeBool" [_], x => decide (x = 0) || decide (x = 1)
  | _, _ => false

/-! ## ABI type classifier (`_evm_base_sort_int`, `_evm_base_sort`) -/

/-- `_evm_base_sort_int` from the source: decides whether a type label
maps to the `Int` sort; raises (`.error`) on malformed fixed-width
types.  (`int(...)` failure on a non-numeric width is a Python
`ValueError`; both raises are modelled as `.error`.) -/
def _evm_base_sort_int (type_label : String) : Except String Bool := do
  let mut success := false

  -- Check address and bool
  if type_label = "address" ∨ type_label = "bool" then
    success := true

  -- Check bytes
  if pyStartsWith type_label "bytes" ∧ pyLen type_label > 5 ∧ ¬ pyEndsWith type_label "]" then
    match pyInt? (pyDrop type_label 5) with
    | none => throw ("invalid literal for int(): " ++ pyDrop type_label 5)
    | some width =>
      if ¬ (width = 4 ∨ width = 32) then
        throw ("Unsupported evm base sort type: " ++ type_label)
      else
        success := true

  -- Check ints
  if pyStartsWith type_label "int" ∧ ¬ pyEndsWith type_label "]" then
    match pyInt? (pyDrop type_label 3) with
    | none => throw ("invalid literal for int(): " ++ pyDrop type_label 3)
    | some width =>
      if ¬ (width = 256) then
        throw ("Unsupported evm base sort type: " ++ type_label)
      else
        success := true

  -- Check uints
  if pyStartsWith type_label "uint" ∧ ¬ pyEndsWith type_label "]" then
    match pyInt? (pyDrop type_label 4) with
    | none => throw ("invalid literal for int(): " ++ pyDrop type_label 4)
    | some width =>
      if ¬ (0 < width ∧ width ≤ 256 ∧ width % 8 = 0) then
        throw ("Unsupported evm base sort type: " ++ type_label)
      else
        success := true

  return success

/-- `_evm_base_sort` from the source: base K sort of a type label
(sorts carried as their names). -/
def _evm_base_sort (type_label : String) : Except String String := do
  if (← _evm_base_sort_int type_label) then
    return "Int"
  if type_label = "bytes" then
    return "Bytes"
  if type_label = "string" then
    return "String"
  -- logged: using generic sort K
  return "K"

/-! ## Range predicate generator (`_range_predicate_uint`, `_range_predicate`) -/

/-- `_range_predicate_uint` from the source. -/
def _range_predicate_uint (term : KInner) (type_label : String) :
    Except String (Bool × Option KInner) := do
  if pyStartsWith type_label "uint" ∧ ¬ pyEndsWith type_label "]" then
    match pyInt? (pyDrop type_label 4) with
    | none => throw ("invalid literal for int(): " ++ pyDrop type_label 4)
    | some width =>
      if ¬ (0 < width ∧ width ≤ 256 ∧ width % 8 = 0) then
        throw ("Unsupported range predicate type: " ++ type_label)
      else
        return (true, some (KEVM.range_uint width term))
  else
    return (false, none)

/-- `_range_predicate` from the source: the symbolic constraint for a
term of the given ABI type, or `none` ("no predicate", logged). -/
def _range_predicate (term : KInner) (type_label : String) :
    Except String (Option KInner) := do
  let (success, result) ← _range_predicate_uint term type_label
  if success then
    return result
  if type_label = "address" then
    return some (KEVM.range_address term)
  if type_label = "bool" then
    return some (KEVM.range_bool term)
  if type_label = "bytes4" then
    return some (KEVM.range_bytes (intToken 4) term)
  if type_label = "bytes32" ∨ type_label = "uint256" then
    return some (KEVM.range_uint 256 term)
  if type_label = "int256" then
    return some (KEVM.range_sint 256 term)
  if type_label = "bytes" then
    return some (KEVM.range_uint 128 (KEVM.size_bytes term))
  if type_label = "string" then
    return some TRUE
  -- logged: unknown range predicate
  return none

/-! ## Bytecode instruction indexer (the scan inside `Contract.srcmap`) -/

/-- One step of the indexer loop, fuel-indexed for structural recursion:
fuel `bs.length` suffices because `pc` strictly increases each
iteration.  Returns the `(instr, pc)` pairs in order (the dict
`instr_to_pc` assigns indices densely from 0). -/
def instrToPcAux (bs : List Nat) : Nat → Nat → Nat → List (Nat × Nat)
  | 0, _, _ => []
  | fuel + 1, pc, instr =>
    if pc < bs.length then
      let b := bs.getD pc 0
      let pcNext := if 0x60 ≤ b ∧ b < 0x7F then pc + (b - 0x5F) + 1 else pc + 1
      (instr, pc) :: instrToPcAux bs fuel pcNext (instr + 1)
    else []

/-- The `instr_to_pc` scan of `Contract.srcmap` (source lines 178–189):
decode a byte sequence into the instruction-index → program-counter map,
skipping push immediates per the `0x60 ≤ b < 0x7F` test. -/
def instr_to_pc (bs : List Nat) : List (Nat × Nat) :=
  instrToPcAux bs bs.length 0 0

instance {e a : Type} [DecidableEq e] [DecidableEq a] : DecidableEq (Except e a) := fun x y =>
  match x, y with
  | .ok u, .ok v =>
    if h : u = v then isTrue (by rw [h]) else isFalse (by simp [h])
  | .error u, .error v =>
    if h : u = v then isTrue (by rw [h]) else isFalse (by simp [h])
  | .ok _, .error _ => isFalse (by simp)
  | .error _, .ok _ => isFalse (by simp)

/-! ## JSON values

The artifact (`contract_json`) is a parsed JSON document; this mirrors
the values Python's `json` module produces (floats are not used by any
artifact field this module touches). -/

inductive J where
  | null
  | jbool (b : Bool)
  | jint (i : Int)
  | jstr (s : String)
  | jarr (xs : List J)
  | jobj (kvs : List (String × J))

mutual

/-- Decidable equality on JSON values. -/
def J.decEq : (a b : J) → Decidable (a = b)
  | .null, .null => isTrue rfl
  | .jbool a, .jbool b =>
    match Bool.decEq a b with
    | isTrue h => isTrue (by rw [h])
    | isFalse h => isFalse (fun hh => h (by cases hh; rfl))
  | .jint a, .jint b =>
    match Int.decEq a b with
    | isTrue h => isTrue (by rw [h])
    | isFalse h => isFalse (fun hh => h (by cases hh; rfl))
  | .jstr a, .jstr b =>
    match String.decEq a b with
    | isTrue h => isTrue (by rw [h])
    | isFalse h => isFalse (fun hh => h (by cases hh; rfl))
  | .jarr a, .jarr b =>
    match J.decEqArr a b with
    | isTrue h => isTrue (by rw [h])
    | isFalse h => isFalse (fun hh => h (by cases hh; rfl))
  | .jobj a, .jobj b =>
    match J.decEqObj a b with
    | isTrue h => isTrue (by rw [h])
    | isFalse h => isFalse (fun hh => h (by cases hh; rfl))
  | .null, .jbool _ | .null, .jint _ | .null, .jstr _ | .null, .jarr _ | .null, .jobj _
  | .jbool _, .null | .jbool _, .jint _ | .jbool _, .jstr _ | .jbool _, .jarr _
  | .jbool _, .jobj _ | .jint _, .null | .jint _, .jbool _ | .jint _, .jstr _
  | .jint _, .jarr _ | .jint _, .jobj _ | .jstr _, .null | .jstr _, .jbool _
  | .jstr _, .jint _ | .jstr _, .jarr _ | .jstr _, .jobj _ | .jarr _, .null
  | .jarr _, .jbool _ | .jarr _, .jint _ | .jarr _, .jstr _ | .jarr _, .jobj _
  | .jobj _, .null | .jobj _, .jbool _ | .jobj _, .jint _ | .jobj _, .jstr _
  | .jobj _, .jarr _ =>
    isFalse (fun h => J.noConfusion h)

/-- Decidable equality on JSON arrays. -/
def J.decEqArr : (as bs : List J) → Decidable (as = bs)
  | [], [] => isTrue rfl
  | x :: xs, y :: ys =>
    match J.decEq x y with
    | isTrue hx =>
      match J.decEqArr xs ys with
      | isTrue hxs => isTrue (by rw [hx, hxs])
      | isFalse hxs => isFalse (fun h => hxs (by cases h; rfl))
    | isFalse hx => isFalse (fun h => hx (by cases h; rfl))
  | [], _ :: _ => isFalse (fun h => List.noConfusion h)
  | _ :: _, [] => isFalse (fun h => List.noConfusion h)

/-- Decidable equality on JSON object entry lists. -/
def J.decEqObj : (as bs : List (String × J)) → Decidable (as = bs)
  | [], [] => isTrue rfl
  | (k₁, v₁) :: xs, (k₂, v₂) :: ys =>
    match String.decEq k₁ k₂ with
    | isTrue hk =>
      match J.decEq v₁ v₂ with
      | isTrue hv =>
        match J.decEqObj xs ys with
        | isTrue hxs => isTrue (by rw [hk, hv, hxs])
        | isFalse hxs => isFalse (fun h => hxs (by cases h; rfl))
      | isFalse hv => isFalse (fun h => hv (by cases h; rfl))
    | isFalse hk => isFalse (fun h => hk (by cases h; rfl))
  | [], _ :: _ => isFalse (fun h => List.noConfusion h)
  | _ :: _, [] => isFalse (fun h => List.noConfusion h)

end

instance : DecidableEq J := J.decEq

mutual

/-- Executable structural size of a JSON value (used as recursion fuel:
it dominates the nesting depth). -/
def J.size : J → Nat
  | .null => 1
  | .jbool _ => 1
  | .jint _ => 1
  | .jstr _ => 1
  | .jarr xs => 1 + J.sizeArr xs
  | .jobj kvs => 1 + J.sizeObj kvs

/-- Size of a JSON array's elements. -/
def J.sizeArr : List J → Nat
  | [] => 1
  | x :: xs => 1 + J.size x + J.sizeArr xs

/-- Size of a JSON object's entries. -/
def J.sizeObj : List (String × J) → Nat
  | [] => 1
  | kv :: rest => 1 + J.size kv.2 + J.sizeObj rest

end

/-- Python dict access `j[k]`: `KeyError` when the key is absent,
`TypeError` when `j` is not a dict. -/
def getKey (j : J) (k : String) : Except String J :=
  match j with
  | .jobj kvs =>
    match List.lookup k kvs with
    | some v => .ok v
    | none => .error ("KeyError: " ++ k)
  | _ => .error ("TypeError: not a dict: " ++ k)

/-- Require a JSON string (Python raises `TypeError`/`AttributeError`
when a string operation is applied to a non-string). -/
def getStr : J → Except String String
  | .jstr s => .ok s
  | _ => .error "TypeError: expected str"

/-- Require a JSON array (Python raises `TypeError` when iterating a
non-iterable). -/
def getArr : J → Except String (List J)
  | .jarr xs => .ok xs
  | _ => .error "TypeError: expected list"

/-- Membership test `k in j` for a dict. -/
def hasKey (j : J) (k : String) : Bool :=
  match j with
  | .jobj kvs => (List.lookup k kvs).isSome
  | _ => false

/-! ## Source map decoder (the loop of `Contract.srcmap`, lines 191–206) -/

/-- One decoded source-map entry `(s, l, f, j, m)`. -/
structure SrcEntry where
  s : Int
  l : Int
  f : Int
  j : String
  m : Int
deriving DecidableEq, Repr

/-- The initial carry state `(0, 0, 0, '', 0)`. -/
def initSrcEntry : SrcEntry := ⟨0, 0, 0, "", 0⟩

instance : Inhabited SrcEntry := ⟨initSrcEntry⟩

/-- `if len(fields) > k and fields[k] != '': v = int(fields[k])`,
carrying the previous value otherwise; `none` models `ValueError`. -/
def updIntField (fields : List String) (k : Nat) (prev : Int) : Option Int :=
  if k < fields.length ∧ fields.getD k "" ≠ "" then pyInt? (fields.getD k "") else some prev

/-- Same for the jump-tag field, which is kept as a string. -/
def updStrField (fields : List String) (k : Nat) (prev : String) : String :=
  if k < fields.length ∧ fields.getD k "" ≠ "" then fields.getD k "" else prev

/-- One iteration of the decoder loop: split a segment on `:` and update
the five carry fields. -/
def updateSrcEntry (prev : SrcEntry) (seg : String) : Option SrcEntry := do
  let fields := pySplit seg ':'
  let s ← updIntField fields 0 prev.s
  let l ← updIntField fields 1 prev.l
  let f ← updIntField fields 2 prev.f
  let j := updStrField fields 3 prev.j
  let m ← updIntField fields 4 prev.m
  pure ⟨s, l, f, j, m⟩

/-- The decoder loop over all segments. -/
def decodeSrcmapGo : SrcEntry → List String → Option (List SrcEntry)
  | _, [] => some []
  | prev, seg :: rest => do
    let e ← updateSrcEntry prev seg
    let es ← decodeSrcmapGo e rest
    pure (e :: es)

/-- The source-map decoder of `Contract.srcmap`: one entry per
`;`-separated segment, fields inherited from the previous entry.
`none` models a `ValueError` from `int()` on a malformed field. -/
def decodeSrcmap (raw : String) : Option (List SrcEntry) :=
  decodeSrcmapGo initSrcEntry (pySplit raw ';')

/-- Explicit effectful map over a list in `Except` (the common
`[f(x) for x in xs]` shape: stops at the first raise). -/
def eMapM {a b : Type} (f : a -> Except String b) : List a -> Except String (List b)
  | [] => .ok []
  | x :: xs => do
    let y <- f x
    let ys <- eMapM f xs
    pure (y :: ys)

/-! ## Method signature canonicalizer (`method_sig_from_abi`) -/

/-- Truthiness of Python `re.match(r'.+\[.*\]', s)`: some prefix of `s`
consists of one or more non-newline characters, then `[`, then zero or
more non-newline characters, then `]`. -/
def reDotPlusBracket (s : String) : Bool :=
  let cs := s.data
  (List.range cs.length).any fun i =>
    decide (1 ≤ i) && decide (cs.getD i ' ' = '[') &&
      ((List.range i).all fun k => decide (cs.getD k ' ' ≠ '\n')) &&
      ((List.range cs.length).any fun j =>
        decide (i < j) && decide (cs.getD j ' ' = ']') &&
        ((List.range j).all fun k => decide (k ≤ i) || decide (cs.getD k ' ' ≠ '\n')))

/-- `unparse_input` from the source (fuel-indexed for the recursion into
tuple components; out of fuel is a distinguished error, and every
theorem below exhibits enough fuel).  Canonicalizes one ABI input
descriptor. -/
def unparse_input : Nat → J → Except String String
  | 0, _ => .error "fuel"
  | fuel + 1, input_json => do
    let base_type0 ← getStr (← getKey input_json "type")
    if reDotPlusBracket base_type0 then do
      -- is_array = True
      let second ←
        match pySplit base_type0 '[' with
        | _ :: second :: _ => Except.ok second
        | _ => Except.error "IndexError: list index out of range"
      let array_size_str := pyDropLast second
      let base_type := (pySplit base_type0 '[').getD 0 ""
      if array_size_str ≠ "" then do
        -- is_sized = True
        let array_size ←
          match pyInt? array_size_str with
          | some n => Except.ok n
          | none => Except.error "ValueError: invalid literal for int()"
        if base_type = "tuple" then do
          let comps ← getArr (← getKey input_json "components")
          let parts ← eMapM (unparse_input fuel) comps
          pure ("(" ++ pyJoin "," parts ++ ")" ++ "[" ++ toString array_size ++ "]")
        else
          pure base_type0
      else
        if base_type = "tuple" then do
          let comps ← getArr (← getKey input_json "components")
          let parts ← eMapM (unparse_input fuel) comps
          pure ("(" ++ pyJoin "," parts ++ ")" ++ "[]")
        else
          pure base_type0
    else
      if base_type0 = "tuple" then do
        let comps ← getArr (← getKey input_json "components")
        let parts ← eMapM (unparse_input fuel) comps
        pure ("(" ++ pyJoin "," parts ++ ")")
      else
        pure base_type0

/-- `method_sig_from_abi` from the source: the canonical signature
`name(type1,type2,...)` of a method's ABI descriptor. -/
def method_sig_from_abi (fuel : Nat) (method_json : J) : Except String String := do
  let method_name ← getStr (← getKey method_json "name")
  let inputs ← getArr (← getKey method_json "inputs")
  let parts ← eMapM (unparse_input fuel) inputs
  pure (method_name ++ "(" ++ pyJoin "," parts ++ ")")

/-! ## Storage field table (`Contract.__init__`, lines 158–167) -/

/-- The dedup loop over storage-layout entries: a label already present
is logged and skipped, so the first occurrence of each label wins. -/
def mkFieldsAux : List (String × Int) → List (String × Int) → List (String × Int)
  | acc, [] => acc
  | acc, (l, s) :: rest =>
    if (List.lookup l acc).isSome then
      -- logged: duplicate field access key
      mkFieldsAux acc rest
    else
      mkFieldsAux (acc ++ [(l, s)]) rest

/-- The `_fields` table built by `Contract.__init__` from the
storage-layout `(label, slot)` list. -/
def mkFields (entries : List (String × Int)) : List (String × Int) :=
  mkFieldsAux [] entries

/-! ## K sentences (outer syntax, as much as this module builds) -/

/-- A production item: terminal or non-terminal (sorts by name). -/
inductive ProdItem where
  | terminal (s : String)
  | nonTerminal (sort : String)
deriving DecidableEq

/-- The two sentence forms this module emits: productions (with an
optional klabel) and rewrite rules with an `ensures` clause (pyk `KRule`
defaults `ensures` to `TRUE`). -/
inductive KSentence where
  | production (sort : String) (items : List ProdItem) (klabel : Option String)
  | rule (lhs rhs ensures : KInner)
deriving DecidableEq

/-! ## `Contract.Method` -/

/-- `Contract.Method`: one ABI function of the contract. -/
structure Method where
  name : String
  id : Int
  sort : String
  arg_names : List String
  arg_types : List String
  contract_name : String
  payable : Bool
  signature : String
deriving DecidableEq

/-- Python `int()` applied to a JSON value (`int` passes through, a
string is parsed, `True`/`False` give 1/0, anything else raises). -/
def pyIntOfJ : J → Except String Int
  | .jstr s =>
    match pyInt? s with
    | some n => .ok n
    | none => .error "ValueError: invalid literal for int()"
  | .jint n => .ok n
  | .jbool b => .ok (if b then 1 else 0)
  | _ => .error "TypeError: int() argument"

/-- `Method.__init__`: read name, argument names/types and payability
out of one ABI descriptor.  Argument names are `V{i}_{name}` with `-`
replaced by `_`. -/
def mkMethod (msig : String) (mid : Int) (abi : J) (contract_name : String)
    (sort : String) : Except String Method := do
  let name ← getStr (← getKey abi "name")
  let inputs ← getArr (← getKey abi "inputs")
  let arg_names ← eMapM (fun iv => do
    let nm ← getStr (← getKey iv.2 "name")
    pure ("V" ++ toString iv.1 ++ "_" ++ pyReplaceDash nm)) inputs.enum
  let arg_types ← eMapM (fun input => do getStr (← getKey input "type")) inputs
  let smut ← getKey abi "stateMutability"
  let payable := decide (smut = J.jstr "payable")
  pure ⟨name, mid, sort, arg_names, arg_types, contract_name, payable, msig⟩

/-- `Method.klabel`: `method_{contract}_{name}_{types joined by _}`. -/
def Method.klabel (m : Method) : String :=
  "method_" ++ m.contract_name ++ "_" ++ m.name ++ "_" ++ pyJoin "_" m.arg_types

/-- `Method.selector_alias_rule`: rewrite the selector of the signature
to the numeric method id. -/
def Method.selector_alias_rule (m : Method) : KSentence :=
  .rule (KEVM.abi_selector m.signature) (intToken m.id) TRUE

/-- `Method.production`: `name ( S1 : t1 , S2 : t2 , ... )` with the
base sort of each argument type (which may raise). -/
def Method.production (m : Method) : Except String KSentence := do
  let items_args ← eMapM (fun it => do
    let sort ← _evm_base_sort it.2
    let pre : List ProdItem := if it.1 > 0 then [.terminal ","] else []
    pure (pre ++ [.nonTerminal sort, .terminal ":", .terminal it.2])) m.arg_types.enum
  pure (.production m.sort
    ([.terminal m.name, .terminal "("] ++ items_args.flatten ++ [.terminal ")"])
    (some m.klabel))

/-- The loop body of `Method.rule` over `zip(arg_names, arg_types)`:
collect the typed-argument terms and the range-predicate conjuncts,
stopping with `none` at the first argument with no predicate (that rule
is abandoned; a raise from `_range_predicate` propagates). -/
def ruleArgsConjuncts : List (String × String) → Except String (Option (List KInner × List KInner))
  | [] => .ok (some ([], []))
  | (input_name, input_type) :: rest => do
    let arg := KEVM.abi_type input_type (.kvariable input_name)
    let rp ← _range_predicate (.kvariable input_name) input_type
    match rp with
    | none =>
      -- logged: unsupported ABI type, will not generate calldata sugar
      pure none
    | some p =>
      match ← ruleArgsConjuncts rest with
      | none => pure none
      | some (args, conjuncts) => pure (some (arg :: args, p :: conjuncts))

/-- `Method.rule`: the calldata-encoding rule of a method, or `none`
when some argument type has no range predicate (`zip(..., strict=True)`
raises when name and type counts differ). -/
def Method.rule (m : Method) (contract : KInner) (application_label : String) :
    Except String (Option KSentence) := do
  if m.arg_names.length ≠ m.arg_types.length then
    throw "zip(): strict=True requires equal lengths"
  else
    match ← ruleArgsConjuncts (m.arg_names.zip m.arg_types) with
    | none => pure none
    | some ac =>
      let arg_vars := m.arg_names.map (fun n => KInner.kvariable n)
      let lhs := KInner.kapply application_label [contract, .kapply m.klabel arg_vars]
      let rhs := KEVM.abi_calldata m.name ac.1
      pure (some (.rule lhs rhs (andBool ac.2)))

/-! ## `Contract` -/

/-- `Contract`: the assembled model.  `fields` is the insertion-ordered
label → slot table (`FrozenDict` preserves insertion order);
`contract_id`, `contract_path` and `raw_sourcemap` hold the raw JSON
values the source stores. -/
structure Contract where
  name : String
  contract_json : J
  contract_id : J
  contract_path : J
  bytecode : String
  raw_sourcemap : Option J
  methods : List Method
  fields : List (String × Int)
deriving DecidableEq

/-- Python `name[0:1].upper() + name[1:]` (ASCII upcasing). -/
def pyCapFirst (s : String) : String :=
  ⟨(s.data.take 1).map Char.toUpper ++ s.data.drop 1⟩

/-- `Contract.name_upper`. -/
def Contract.name_upper (c : Contract) : String := pyCapFirst c.name

/-- `Contract.sort`. -/
def Contract.sort (c : Contract) : String := c.name_upper ++ "Contract"

/-- `Contract.sort_field`. -/
def Contract.sort_field (c : Contract) : String := c.name_upper ++ "Field"

/-- `Contract.sort_method`. -/
def Contract.sort_method (c : Contract) : String := c.name_upper ++ "Method"

/-- `Contract.klabel`. -/
def Contract.klabel (c : Contract) : String := "contract_" ++ c.name

/-- `Contract.klabel_method`. -/
def Contract.klabel_method (c : Contract) : String := "method_" ++ c.name

/-- `Contract.klabel_field`. -/
def Contract.klabel_field (c : Contract) : String := "field_" ++ c.name

/-- `Contract.subsort`: `Contract ::= <sort>`. -/
def Contract.subsort (c : Contract) : KSentence :=
  .production "Contract" [.nonTerminal c.sort] none

/-- `Contract.subsort_field`: `Field ::= <sort_field>`. -/
def Contract.subsort_field (c : Contract) : KSentence :=
  .production "Field" [.nonTerminal c.sort_field] none

/-- `Contract.production`: `<sort> ::= name`. -/
def Contract.production (c : Contract) : KSentence :=
  .production c.sort [.terminal c.name] (some c.klabel)

/-- `Contract.macro_bin_runtime`. -/
def Contract.macro_bin_runtime (c : Contract) : KSentence :=
  .rule (KEVM.bin_runtime (.kapply c.klabel []))
    (KEVM.parse_bytestack (.kstrTok ("0x" ++ c.bytecode))) TRUE

/-- Dict lookup without raising (`x[k] if 'k' in x`-style access). -/
def getKeyOpt (j : J) (k : String) : Option J :=
  match j with
  | .jobj kvs => List.lookup k kvs
  | _ => none

/-- Lexicographic code-point order on character lists (Python string
`<=`). -/
def pyStrLeChars : List Char → List Char → Bool
  | [], _ => true
  | _ :: _, [] => false
  | c₁ :: r₁, c₂ :: r₂ =>
    if c₁.toNat < c₂.toNat then true
    else if c₂.toNat < c₁.toNat then false
    else pyStrLeChars r₁ r₂

/-- Python string `a <= b` (lexicographic by code point). -/
def pyStrLe (a b : String) : Bool := pyStrLeChars a.data b.data

/-- Stable insertion into a sorted list: `x` goes before the first `y`
with `le x y`. -/
def pySortedInsert {a : Type} (le : a -> a -> Bool) (x : a) : List a -> List a
  | [] => [x]
  | y :: ys => if le x y then x :: y :: ys else y :: pySortedInsert le x ys

/-- Stable sort by a total boolean preorder: the same list Python's
stable `sorted` computes (any two stable sorts agree on a total
preorder). -/
def pySorted {a : Type} (le : a -> a -> Bool) : List a -> List a
  | [] => []
  | x :: xs => pySortedInsert le x (pySorted le xs)

/-- The per-ABI-entry loop of `Contract.__init__`: skip non-function
entries, compute the canonical signature, look its selector up (a
missing selector raises `KeyError`), parse it base-16, and build the
`Method`.  Methods are collected in ABI order. -/
def mkMethodsLoop (methodIdentifiers : J) (contract_name : String) :
    List J -> Except String (List Method)
  | [] => .ok []
  | method :: rest => do
    let ty <- getKey method "type"
    if ty != J.jstr "function" then
      mkMethodsLoop methodIdentifiers contract_name rest
    else do
      let msig <- method_sig_from_abi (J.size method) method
      let midStr <- getStr (<- getKey methodIdentifiers msig)
      let mid <-
        match pyIntHex? midStr with
        | some n => pure n
        | none => Except.error "ValueError: invalid literal for int() base 16"
      let m <- mkMethod msig mid method contract_name (pyCapFirst contract_name ++ "Method")
      pure (m :: (<- mkMethodsLoop methodIdentifiers contract_name rest))

/-- `Contract.__init__`: assemble a `Contract` from its name and the
artifact JSON.  Python's `sorted(_methods, key=signature)` is a stable
sort by the signature string; `List.insertionSort` is stable too, so
both compute the same list. -/
def mkContract (contract_name : String) (contract_json : J) (foundry : Bool) :
    Except String Contract := do
  let contract_id ← getKey contract_json "id"
  let contract_path ← getKey (← getKey contract_json "ast") "absolutePath"
  let evm ← if foundry then pure contract_json else getKey contract_json "evm"
  let deployed_bytecode ← getKey evm "deployedBytecode"
  let bytecodeStr ← getStr (← getKey deployed_bytecode "object")
  let bytecode : String := ⟨pyReplace0x bytecodeStr.data⟩
  let raw_sourcemap := getKeyOpt deployed_bytecode "sourceMap"
  let abi ← getArr (← getKey contract_json "abi")
  let methodIdentifiers ← getKey evm "methodIdentifiers"
  let ms ← mkMethodsLoop methodIdentifiers contract_name abi
  let methods := pySorted (fun a b => pyStrLe a.signature b.signature) ms
  let fields ←
    if hasKey contract_json "storageLayout" then do
      let sl ← getKey contract_json "storageLayout"
      if hasKey sl "storage" then do
        let storage ← getArr (← getKey sl "storage")
        let entries ← eMapM (fun fj => do
          let label ← getStr (← getKey fj "label")
          let slot ← pyIntOfJ (← getKey fj "slot")
          pure (label, slot)) storage
        pure (mkFields entries)
      else pure []
    else pure []
  pure ⟨contract_name, contract_json, contract_id, contract_path, bytecode,
        raw_sourcemap, methods, fields⟩

/-- `Contract.method_sentences`: the application production, per-method
productions, the calldata rules that exist, and the selector aliases;
`[]` when there are no methods (the list would have length 1). -/
def Contract.method_sentences (c : Contract) : Except String (List KSentence) := do
  let method_application_production : KSentence :=
    .production "Bytes" [.nonTerminal c.sort, .terminal ".", .nonTerminal c.sort_method]
      (some c.klabel_method)
  let prods ← eMapM Method.production c.methods
  let method_rules ← eMapM
    (fun m => m.rule (.kapply c.klabel []) c.klabel_method) c.methods
  let res := method_application_production :: prods
    ++ method_rules.filterMap id
    ++ c.methods.map Method.selector_alias_rule
  if res.length > 1 then pure res else pure []

/-- `Contract.field_sentences`. -/
def Contract.field_sentences (c : Contract) : List KSentence :=
  let prods := c.subsort_field :: c.fields.map (fun fs =>
    KSentence.production c.sort_field [.terminal fs.1] (some (c.klabel_field ++ "_" ++ fs.1)))
  let rules := c.fields.map (fun fs =>
    KSentence.rule
      (KEVM.loc (.kapply "contract_access_field"
        [.kapply c.klabel [], .kapply (c.klabel_field ++ "_" ++ fs.1) []]))
      (intToken fs.2) TRUE)
  if prods.length = 1 ∧ rules = [] then [] else prods ++ rules

/-- `Contract.sentences`. -/
def Contract.sentences (c : Contract) : Except String (List KSentence) := do
  pure ([c.subsort, c.production, c.macro_bin_runtime]
    ++ c.field_sentences ++ (← c.method_sentences))

/-- `Contract.method_by_name`: filters on the literal name `'setUp'`
(not on the `name` argument, which only appears in the error text). -/
def Contract.method_by_name (c : Contract) (name : String) : Except String (Option Method) :=
  let methods := c.methods.filter (fun method => method.name == "setUp")
  match methods with
  | _ :: _ :: _ =>
    .error ("Found multiple methods with name " ++ name ++ ", expected at most one")
  | [] => .ok none
  | [m] => .ok (some m)

/-- Hex-pair decoding of the bytecode string
(`int(self.bytecode[i:i+2], 16)` for `i in range(0, len, 2)`). -/
def hexBytes : List Char → Except String (List Nat)
  | [] => .ok []
  | [c] =>
    match pyIntHex? ⟨[c]⟩ with
    | some n => .ok [n.toNat]
    | none => .error "ValueError: invalid literal for int() base 16"
  | c₁ :: c₂ :: rest => do
    match pyIntHex? ⟨[c₁, c₂]⟩ with
    | some n => pure (n.toNat :: (← hexBytes rest))
    | none => .error "ValueError: invalid literal for int() base 16"

/-- `Contract.srcmap`: empty unless the bytecode is non-empty and a raw
source map is present; otherwise decode the bytes (computing the
`instr_to_pc` table, which the decode below does not consume) and fold
the segment decoder over the raw map. -/
def Contract.srcmap (c : Contract) : Except String (List SrcEntry) := do
  if pyLen c.bytecode > 0 ∧ c.raw_sourcemap.isSome then do
    let raw ← getStr (c.raw_sourcemap.getD J.null)
    let bs ← hexBytes c.bytecode.data
    let _ := instr_to_pc bs
    match decodeSrcmap raw with
    | some entries => pure entries
    | none => .error "ValueError: invalid literal for int()"
  else
    pure []

/-! ## Concrete witness artifacts -/

/-- An artifact with a single method `f(uint9)` (invalid width). -/
def uint9Artifact : J := J.jobj [
  ("id", J.jint 1),
  ("ast", J.jobj [("absolutePath", J.jstr "A.sol")]),
  ("evm", J.jobj [
    ("deployedBytecode", J.jobj [("object", J.jstr "0x6001")]),
    ("methodIdentifiers", J.jobj [("f(uint9)", J.jstr "12345678")])
  ]),
  ("abi", J.jarr [J.jobj [
    ("type", J.jstr "function"),
    ("name", J.jstr "f"),
    ("inputs", J.jarr [J.jobj [("name", J.jstr "x"), ("type", J.jstr "uint9")]]),
    ("stateMutability", J.jstr "nonpayable")
  ]])
]

/-- An artifact with methods `f(mytype)` (unknown complex type, no range
predicate) and `g(uint256)`. -/
def complexArtifact : J := J.jobj [
  ("id", J.jint 1),
  ("ast", J.jobj [("absolutePath", J.jstr "A.sol")]),
  ("evm", J.jobj [
    ("deployedBytecode", J.jobj [("object", J.jstr "0x6001")]),
    ("methodIdentifiers", J.jobj [
      ("f(mytype)", J.jstr "12345678"),
      ("g(uint256)", J.jstr "9abcdef0")
    ])
  ]),
  ("abi", J.jarr [
    J.jobj [
      ("type", J.jstr "function"),
      ("name", J.jstr "f"),
      ("inputs", J.jarr [J.jobj [("name", J.jstr "x"), ("type", J.jstr "mytype")]]),
      ("stateMutability", J.jstr "nonpayable")
    ],
    J.jobj [
      ("type", J.jstr "function"),
      ("name", J.jstr "g"),
      ("inputs", J.jarr [J.jobj [("name", J.jstr "y"), ("type", J.jstr "uint256")]]),
      ("stateMutability", J.jstr "payable")
    ]
  ])
]

/-- The `f(mytype)` method of `complexArtifact` as built by the model. -/
def mfComplex : Method :=
  ⟨"f", 305419896, "AMethod", ["V0_x"], ["mytype"], "A", false, "f(mytype)"⟩

/-- The `g(uint256)` method of `complexArtifact` as built by the model. -/
def mgComplex : Method :=
  ⟨"g", 2596069104, "AMethod", ["V0_y"], ["uint256"], "A", true, "g(uint256)"⟩

/-- The contract `mkContract` builds from `complexArtifact`. -/
def complexContract : Contract :=
  ⟨"A", complexArtifact, J.jint 1, J.jstr "A.sol", "6001", none, [mfComplex, mgComplex], []⟩

/-! ## Digest: canonical JSON serialization and content hash

`Contract.digest` is `hash_str(f'{name} - {json.dumps(contract_json,
sort_keys=True)}')`.  Both `json.dumps` and pyk's `hash_str` are outside
this repository's sources, so they are modelled from the specification:
the serialization is canonical (object keys sorted recursively, as
`sort_keys=True` sorts them) and injective, and the hash is a
deterministic content hash that the spec stipulates separates distinct
content, modelled as an injective function of the hashed string. -/

mutual

/-- Modelled from the spec: the canonicalization `sort_keys=True`
performs — object keys sorted recursively (Python sorts keys
lexicographically by code point, the order `pyStrLe` computes). -/
def canonJ : J → J
  | .null => .null
  | .jbool b => .jbool b
  | .jint i => .jint i
  | .jstr s => .jstr s
  | .jarr xs => .jarr (canonArr xs)
  | .jobj kvs => .jobj (pySorted (fun a b => pyStrLe a.1 b.1) (canonObj kvs))

/-- Canonicalize the elements of a JSON array. -/
def canonArr : List J → List J
  | [] => []
  | x :: xs => canonJ x :: canonArr xs

/-- Canonicalize the values of a JSON object (keys untouched). -/
def canonObj : List (String × J) → List (String × J)
  | [] => []
  | kv :: rest => (kv.1, canonJ kv.2) :: canonObj rest

end

mutual

/-- Modelled from the spec: an injective serialization of JSON values,
standing in for the JSON text `json.dumps` produces (the claims depend
on its determinism and injectivity, not on JSON's surface syntax).
Counts are written in unary so every case is plain structural
recursion. -/
def serJ : J → List Char
  | .null => ['n']
  | .jbool true => ['t']
  | .jbool false => ['f']
  | .jint i =>
    'i' :: (if i < 0 then '-' else '+') :: (List.replicate i.natAbs '1' ++ ['e'])
  | .jstr s => 's' :: (List.replicate s.data.length '1' ++ ':' :: s.data)
  | .jarr xs => 'l' :: (List.replicate xs.length '1' ++ ':' :: serArr xs)
  | .jobj kvs => 'd' :: (List.replicate kvs.length '1' ++ ':' :: serObj kvs)

/-- Serialize array elements in order. -/
def serArr : List J → List Char
  | [] => []
  | x :: xs => serJ x ++ serArr xs

/-- Serialize object entries in order (each key as a counted string,
then the value). -/
def serObj : List (String × J) → List Char
  | [] => []
  | kv :: rest =>
    's' :: (List.replicate kv.1.data.length '1' ++ ':' :: kv.1.data)
      ++ serJ kv.2 ++ serObj rest

end

/-- Modelled from the spec: `json.dumps(j, sort_keys=True)` —
canonicalize, then serialize. -/
def json_dumps_sorted (j : J) : String := ⟨serJ (canonJ j)⟩

/-- Modelled from the spec: pyk `hash_str` is a deterministic content
hash used as a cache key; §3 stipulates that any content change changes
the digest, so the hash is modelled as an injective function of the
hashed string (the identity). -/
def hash_str (s : String) : String := s

/-- `Contract.digest`: `hash_str(f'{self.name} - {json.dumps(self.contract_json, sort_keys=True)}')`. -/
def Contract.digest (c : Contract) : String :=
  hash_str (c.name ++ " - " ++ json_dumps_sorted c.contract_json)

mutual

/-- Inverse of `serJ`, fuel-indexed (fuel bounds the nesting depth). -/
def parseJ : Nat → List Char → Option (J × List Char)
  | 0, _ => none
  | _ + 1, 'n' :: r => some (.null, r)
  | _ + 1, 't' :: r => some (.jbool true, r)
  | _ + 1, 'f' :: r => some (.jbool false, r)
  | _ + 1, 'i' :: sign :: r =>
    let marks := r.takeWhile (fun c => c == '1')
    match r.dropWhile (fun c => c == '1') with
    | 'e' :: r₂ =>
      if sign = '-' then some (.jint (-(marks.length : Int)), r₂)
      else if sign = '+' then some (.jint (marks.length : Int), r₂)
      else none
    | _ => none
  | _ + 1, 's' :: r =>
    let n := (r.takeWhile (fun c => c == '1')).length
    match r.dropWhile (fun c => c == '1') with
    | ':' :: r₂ => some (.jstr ⟨r₂.take n⟩, r₂.drop n)
    | _ => none
  | fuel + 1, 'l' :: r =>
    let n := (r.takeWhile (fun c => c == '1')).length
    match r.dropWhile (fun c => c == '1') with
    | ':' :: r₂ =>
      match parseArrN fuel n r₂ with
      | some (xs, r₃) => some (.jarr xs, r₃)
      | none => none
    | _ => none
  | fuel + 1, 'd' :: r =>
    let n := (r.takeWhile (fun c => c == '1')).length
    match r.dropWhile (fun c => c == '1') with
    | ':' :: r₂ =>
      match parseObjN fuel n r₂ with
      | some (kvs, r₃) => some (.jobj kvs, r₃)
      | none => none
    | _ => none
  | _ + 1, _ => none
termination_by fuel _cs => (fuel, 0)

/-- Parse exactly `n` array elements. -/
def parseArrN : Nat → Nat → List Char → Option (List J × List Char)
  | _, 0, cs => some ([], cs)
  | fuel, n + 1, cs =>
    match parseJ fuel cs with
    | some (v, r) =>
      match parseArrN fuel n r with
      | some (vs, r₂) => some (v :: vs, r₂)
      | none => none
    | none => none
termination_by fuel n _cs => (fuel, n + 1)

/-- Parse exactly `n` object entries (counted key, then value). -/
def parseObjN : Nat → Nat → List Char → Option (List (String × J) × List Char)
  | _, 0, cs => some ([], cs)
  | fuel, n + 1, 's' :: r =>
    let k := (r.takeWhile (fun c => c == '1')).length
    match r.dropWhile (fun c => c == '1') with
    | ':' :: r₂ =>
      match parseJ fuel (r₂.drop k) with
      | some (v, r₃) =>
        match parseObjN fuel n r₃ with
        | some (kvs, r₄) => some ((⟨r₂.take k⟩, v) :: kvs, r₄)
        | none => none
      | none => none
    | _ => none
  | _, _ + 1, _ => none
termination_by fuel n _cs => (fuel, n + 1)

end

/-- Does `k` occur among the keys of the entry list? -/
def keyMem (k : String) : List (String × J) → Bool
  | [] => false
  | kv :: rest => k == kv.1 || keyMem k rest

/-- Key-uniqueness check for an object's entry list. -/
def nodupKeys : List (String × J) → Bool
  | [] => true
  | kv :: rest => !(keyMem kv.1 rest) && nodupKeys rest

mutual

/-- A JSON value as Python's `json` module produces them: every object
has pairwise-distinct keys. -/
def goodJ : J → Bool
  | .null => true
  | .jbool _ => true
  | .jint _ => true
  | .jstr _ => true
  | .jarr xs => goodArr xs
  | .jobj kvs => nodupKeys kvs && goodObj kvs

/-- Goodness of array elements. -/
def goodArr : List J → Bool
  | [] => true
  | x :: xs => goodJ x && goodArr xs

/-- Goodness of object entry values. -/
def goodObj : List (String × J) → Bool
  | [] => true
  | kv :: rest => goodJ kv.2 && goodObj rest

end

mutual

/-- Equality of JSON documents as Python values: scalars compare by
value, arrays pointwise, and objects as dicts — same number of entries,
and every entry of the left object is matched, via lookup, by an
equivalent entry of the right one. -/
inductive StructEquiv : J → J → Prop where
  | null : StructEquiv .null .null
  | jbool (b : Bool) : StructEquiv (.jbool b) (.jbool b)
  | jint (i : Int) : StructEquiv (.jint i) (.jint i)
  | jstr (s : String) : StructEquiv (.jstr s) (.jstr s)
  | jarr (xs ys : List J) : ArrEquiv xs ys → StructEquiv (.jarr xs) (.jarr ys)
  | jobj (kvs1 kvs2 : List (String × J)) :
      kvs1.length = kvs2.length →
      ObjSub kvs1 kvs2 →
      StructEquiv (.jobj kvs1) (.jobj kvs2)

/-- Pointwise equivalence of array elements. -/
inductive ArrEquiv : List J → List J → Prop where
  | nil : ArrEquiv [] []
  | cons {x y : J} {xs ys : List J} :
      StructEquiv x y → ArrEquiv xs ys → ArrEquiv (x :: xs) (y :: ys)

/-- Every entry of the first list has, via lookup, an equivalent entry
in the second. -/
inductive ObjSub : List (String × J) → List (String × J) → Prop where
  | nil (kvs2 : List (String × J)) : ObjSub [] kvs2
  | cons {k : String} {v v2 : J} {rest kvs2 : List (String × J)} :
      List.lookup k kvs2 = some v2 → StructEquiv v v2 →
      ObjSub rest kvs2 → ObjSub ((k, v) :: rest) kvs2

end

/-- Two contracts with the same (null) artifact JSON but different
names. -/
def contractA : Contract := ⟨"A", J.null, J.null, J.null, "", none, [], []⟩

/-- See `contractA`. -/
def contractB : Contract := ⟨"B", J.null, J.null, J.null, "", none, [], []⟩

/-! # Theorems -/

/-! ## Helper lemmas -/

theorem updIntField_empty (fields : List String) (k : Nat) (prev v : Int)
    (hf : fields.getD k "" = "") (h : updIntField fields k prev = some v) : v = prev := by
  unfold updIntField at h
  rw [if_neg] at h
  · exact (Option.some_inj.mp h).symm
  · rintro ⟨-, hne⟩; exact hne hf

theorem updStrField_empty (fields : List String) (k : Nat) (prev : String)
    (hf : fields.getD k "" = "") : updStrField fields k prev = prev := by
  unfold updStrField
  rw [if_neg]
  rintro ⟨-, hne⟩; exact hne hf

theorem updateSrcEntry_inherit (p : SrcEntry) (seg : String) (e : SrcEntry)
    (h : updateSrcEntry p seg = some e) :
    ((pySplit seg ':').getD 0 "" = "" → e.s = p.s) ∧
    ((pySplit seg ':').getD 1 "" = "" → e.l = p.l) ∧
    ((pySplit seg ':').getD 2 "" = "" → e.f = p.f) ∧
    ((pySplit seg ':').getD 3 "" = "" → e.j = p.j) ∧
    ((pySplit seg ':').getD 4 "" = "" → e.m = p.m) := by
  simp only [updateSrcEntry, Option.bind_eq_bind, Option.bind_eq_some, Option.pure_def,
    Option.some_inj] at h
  obtain ⟨s, hs, l, hl, f, hf, m, hm, he⟩ := h
  subst he
  exact ⟨fun h0 => updIntField_empty _ _ _ _ h0 hs,
         fun h1 => updIntField_empty _ _ _ _ h1 hl,
         fun h2 => updIntField_empty _ _ _ _ h2 hf,
         fun h3 => updStrField_empty _ _ _ h3,
         fun h4 => updIntField_empty _ _ _ _ h4 hm⟩

theorem decodeSrcmapGo_spec : ∀ (segs : List String) (prev : SrcEntry) (entries : List SrcEntry),
    decodeSrcmapGo prev segs = some entries →
    entries.length = segs.length ∧
    ∀ i : Nat, i < entries.length →
      updateSrcEntry (if i = 0 then prev else entries.getD (i - 1) initSrcEntry)
        (segs.getD i "") = some (entries.getD i initSrcEntry)
  | [], prev, entries => by
    intro h
    simp only [decodeSrcmapGo, Option.some_inj] at h
    subst h
    simp
  | seg :: rest, prev, entries => by
    intro h
    cases hu : updateSrcEntry prev seg with
    | none => simp [decodeSrcmapGo, hu] at h
    | some e =>
      cases hg : decodeSrcmapGo e rest with
      | none => simp [decodeSrcmapGo, hu, hg] at h
      | some es =>
        simp only [decodeSrcmapGo, hu, hg, Option.bind_eq_bind, Option.some_bind,
          Option.pure_def, Option.some_inj] at h
        subst h
        obtain ⟨ihlen, ihstep⟩ := decodeSrcmapGo_spec rest e es hg
        refine ⟨by simp [ihlen], ?_⟩
        intro i hi
        match i with
        | 0 => simpa using hu
        | Nat.succ j =>
          have hj : j < es.length := by simpa using hi
          have := ihstep j hj
          cases j with
          | zero => simpa using this
          | succ j' => simpa using this

theorem lookup_append_pairs (l₁ l₂ : List (String × Int)) (a : String) :
    List.lookup a (l₁ ++ l₂) =
      (List.lookup a l₁).orElse (fun _ => List.lookup a l₂) := by
  induction l₁ with
  | nil => simp [List.lookup]
  | cons kv rest ih =>
    obtain ⟨k, v⟩ := kv
    by_cases h : a = k
    · simp [List.lookup, h]
    · simp only [List.cons_append, List.lookup]
      rw [beq_false_of_ne h]
      exact ih

theorem lookup_none_notin (l : List (String × Int)) (a : String)
    (h : List.lookup a l = none) : a ∉ l.map Prod.fst := by
  induction l with
  | nil => simp
  | cons kv rest ih =>
    obtain ⟨k, v⟩ := kv
    by_cases hk : a = k
    · subst hk; simp [List.lookup] at h
    · simp only [List.lookup, beq_false_of_ne hk] at h
      simp [hk, ih h]

theorem mkFieldsAux_lookup : ∀ (rest acc : List (String × Int)) (a : String),
    List.lookup a (mkFieldsAux acc rest) =
      (List.lookup a acc).orElse (fun _ => List.lookup a rest)
  | [], acc, a => by
    cases h : List.lookup a acc <;> simp [mkFieldsAux, List.lookup, h, Option.orElse]
  | (k, v) :: rest, acc, a => by
    simp only [mkFieldsAux]
    split
    case isTrue h =>
      rw [mkFieldsAux_lookup rest acc a]
      by_cases hak : a = k
      · subst hak
        obtain ⟨w, hw⟩ := Option.isSome_iff_exists.mp h
        simp [hw, List.lookup, Option.orElse]
      · cases ha : List.lookup a acc <;>
          simp [ha, List.lookup, beq_false_of_ne hak, Option.orElse]
    case isFalse h =>
      rw [mkFieldsAux_lookup rest (acc ++ [(k, v)]) a]
      rw [lookup_append_pairs]
      by_cases hak : a = k
      · subst hak
        have hnone : List.lookup a acc = none := by
          cases hx : List.lookup a acc
          · rfl
          · exact absurd (by simp [hx]) h
        simp [hnone, List.lookup, Option.orElse]
      · cases ha : List.lookup a acc <;>
          simp [ha, List.lookup, beq_false_of_ne hak, Option.orElse]

theorem mkFieldsAux_nodup : ∀ (rest acc : List (String × Int)),
    (acc.map Prod.fst).Nodup → ((mkFieldsAux acc rest).map Prod.fst).Nodup
  | [], acc, h => h
  | (k, v) :: rest, acc, h => by
    simp only [mkFieldsAux]
    split
    case isTrue hk => exact mkFieldsAux_nodup rest acc h
    case isFalse hk =>
      apply mkFieldsAux_nodup rest
      have hnone : List.lookup k acc = none := by
        cases hx : List.lookup k acc
        · rfl
        · exact absurd (by simp [hx]) hk
      have hnotin := lookup_none_notin acc k hnone
      simp only [List.map_append, List.map_cons, List.map_nil]
      rw [List.nodup_append]
      refine ⟨h, by simp, ?_⟩
      simp only [List.disjoint_cons_right, List.disjoint_nil_right, and_true]
      intro hmem
      exact hnotin hmem

theorem eMapM_forall₂ {α β : Type} (f : α → Except String β) :
    ∀ (l : List α) (ys : List β), eMapM f l = .ok ys →
      List.Forall₂ (fun x y => f x = .ok y) l ys := by
  intro l
  induction l with
  | nil =>
    intro ys h
    simp only [eMapM, Except.ok.injEq] at h
    cases h
    exact List.Forall₂.nil
  | cons a rest ih =>
    intro ys h
    cases hf : f a with
    | error e => simp [eMapM, hf, pure, bind, Except.pure, Except.bind] at h
    | ok b =>
      cases hr : eMapM f rest with
      | error e => simp [eMapM, hf, hr, pure, bind, Except.pure, Except.bind] at h
      | ok bs =>
        simp only [eMapM, hf, hr, pure, bind, Except.pure, Except.bind,
          Except.ok.injEq] at h
        cases h
        exact List.Forall₂.cons hf (ih bs hr)

theorem forall₂_mem_left {α β : Type} {R : α → β → Prop} :
    ∀ {l : List α} {ys : List β}, List.Forall₂ R l ys → ∀ x, x ∈ l → ∃ y, y ∈ ys ∧ R x y := by
  intro l ys h
  induction h with
  | nil => intro x hx; cases hx
  | cons hR _ ih =>
    intro x hx
    cases hx with
    | head => exact ⟨_, List.mem_cons_self _ _, hR⟩
    | tail _ hmem =>
      obtain ⟨y, hy, hRy⟩ := ih x hmem
      exact ⟨y, List.mem_cons_of_mem _ hy, hRy⟩

theorem ruleArgsConjuncts_none :
    ∀ (pairs : List (String × String)),
    (∀ p ∈ pairs, (_range_predicate (.kvariable p.1) p.2).isOk = true) →
    (∃ p ∈ pairs, _range_predicate (.kvariable p.1) p.2 = .ok none) →
    ruleArgsConjuncts pairs = .ok none := by
  intro pairs
  induction pairs with
  | nil => rintro - ⟨p, hp, -⟩; cases hp
  | cons nt rest ih =>
    rintro hok ⟨p, hp, hpnone⟩
    obtain ⟨n, t⟩ := nt
    have hhead := hok (n, t) (List.mem_cons_self _ _)
    obtain ⟨v, hv⟩ : ∃ v, _range_predicate (.kvariable n) t = .ok v := by
      cases hx : _range_predicate (.kvariable n) t with
      | error e => rw [hx] at hhead; simp [Except.isOk, Except.toBool] at hhead
      | ok v => exact ⟨v, rfl⟩
    cases v with
    | none =>
      simp [ruleArgsConjuncts, hv, pure, bind, Except.pure, Except.bind]
    | some q =>
      have hrest : ruleArgsConjuncts rest = .ok none := by
        apply ih (fun p hp => hok p (List.mem_cons_of_mem _ hp))
        rcases List.mem_cons.mp hp with rfl | hmem
        · rw [hv] at hpnone; cases hpnone
        · exact ⟨p, hmem, hpnone⟩
      simp [ruleArgsConjuncts, hv, hrest, pure, bind, Except.pure, Except.bind]

theorem method_rule_none (m : Method)
    (hlen : m.arg_names.length = m.arg_types.length)
    (hok : ∀ p ∈ m.arg_names.zip m.arg_types,
      (_range_predicate (.kvariable p.1) p.2).isOk = true)
    (hnone : ∃ p ∈ m.arg_names.zip m.arg_types,
      _range_predicate (.kvariable p.1) p.2 = .ok none) :
    ∀ contract application_label, m.rule contract application_label = .ok none := by
  intro contract application_label
  have h := ruleArgsConjuncts_none _ hok hnone
  simp [Method.rule, hlen, h, pure, bind, Except.pure, Except.bind]

/-! ## Claim theorems -/

/-- C1: the claim says a byte is treated as a push instruction exactly
when it is in PUSH1..PUSH32 (`0x60`..`0x7F`).  The scan's test is
`0x60 <= b < 0x7F`, which excludes `0x7F` (PUSH32): on the 33-byte
bytecode `PUSH32 0`, the code decodes all 32 immediate bytes as separate
instructions (33 instructions at `pc = 0..32`) instead of the single
instruction the claim requires, while a bytecode of five `PUSH1 0x00`
does decode to program counters 0, 2, 4, 6, 8. -/
theorem instr_to_pc_push32_excluded :
    instr_to_pc (0x7F :: List.replicate 32 0) = (List.range 33).map (fun i => (i, i)) ∧
    instr_to_pc (0x7F :: List.replicate 32 0) ≠ [(0, 0)] ∧
    instr_to_pc [0x60, 0, 0x60, 0, 0x60, 0, 0x60, 0, 0x60, 0] =
      [(0, 0), (1, 2), (2, 4), (3, 6), (4, 8)] := by decide

/-- C2: for every width `N` with `0 < N ≤ 256` and `N % 8 = 0`, the
predicate generated for `uintN` is the unsigned-range constraint over
`[0, 2^N − 1]`: it accepts exactly that interval, accepting 0 and
`2^N − 1`, rejecting `2^N` and `−1`. -/
theorem range_predicate_uint_unsigned_range (N : Nat) (x : Int)
    (h1 : 0 < N) (h2 : N ≤ 256) (h3 : N % 8 = 0) :
    _range_predicate_uint (.kvariable "V0_x") ("uint" ++ toString N) =
      .ok (true, some (KEVM.range_uint N (.kvariable "V0_x"))) ∧
    (predHolds (KEVM.range_uint N (.kvariable "V0_x")) x = true ↔ 0 ≤ x ∧ x ≤ 2 ^ N - 1) ∧
    predHolds (KEVM.range_uint N (.kvariable "V0_x")) 0 = true ∧
    predHolds (KEVM.range_uint N (.kvariable "V0_x")) (2 ^ N - 1) = true ∧
    predHolds (KEVM.range_uint N (.kvariable "V0_x")) (2 ^ N) = false ∧
    predHolds (KEVM.range_uint N (.kvariable "V0_x")) (-1) = false := by
  obtain ⟨k, rfl⟩ : ∃ k, N = 8 * k := ⟨N / 8, by omega⟩
  have hk1 : 1 ≤ k := by omega
  have hk2 : k ≤ 32 := by omega
  clear h1 h2 h3
  interval_cases k <;>
    refine ⟨by decide, ?_, by decide, by decide, by decide, by decide⟩ <;>
    simp [KEVM.range_uint, predHolds]

/-- Witness for C2 at `N = 8`, `x = 5`. -/
theorem range_predicate_uint_unsigned_range_witness :
    0 < 8 ∧ (8 : Nat) ≤ 256 ∧ 8 % 8 = 0 ∧
    (_range_predicate_uint (.kvariable "V0_x") ("uint" ++ toString (8 : Nat)) =
      .ok (true, some (KEVM.range_uint 8 (.kvariable "V0_x"))) ∧
    (predHolds (KEVM.range_uint 8 (.kvariable "V0_x")) 5 = true ↔
      0 ≤ (5 : Int) ∧ (5 : Int) ≤ 2 ^ 8 - 1) ∧
    predHolds (KEVM.range_uint 8 (.kvariable "V0_x")) 0 = true ∧
    predHolds (KEVM.range_uint 8 (.kvariable "V0_x")) (2 ^ 8 - 1) = true ∧
    predHolds (KEVM.range_uint 8 (.kvariable "V0_x")) (2 ^ 8) = false ∧
    predHolds (KEVM.range_uint 8 (.kvariable "V0_x")) (-1) = false) :=
  ⟨by decide, by decide, by decide,
   range_predicate_uint_unsigned_range 8 5 (by decide) (by decide) (by decide)⟩

/-- C3: the source-map decoder produces one entry per `;`-segment in
order; each of the five `:`-fields that is empty or absent inherits,
independently, the previous entry's value (defaults `0,0,0,"",0`); and
`"1:2:0;;3:4:1"` decodes to `(1,2,0,"",0), (1,2,0,"",0), (3,4,1,"",0)`. -/
theorem srcmap_decoder_carry_forward (raw : String) (entries : List SrcEntry)
    (h : decodeSrcmap raw = some entries) :
    decodeSrcmap "1:2:0;;3:4:1" =
      some [⟨1, 2, 0, "", 0⟩, ⟨1, 2, 0, "", 0⟩, ⟨3, 4, 1, "", 0⟩] ∧
    entries.length = (pySplit raw ';').length ∧
    (∀ i : Nat, i < entries.length →
      updateSrcEntry (if i = 0 then initSrcEntry else entries.getD (i - 1) initSrcEntry)
          ((pySplit raw ';').getD i "") = some (entries.getD i initSrcEntry)) ∧
    (∀ (p : SrcEntry) (seg : String) (e : SrcEntry), updateSrcEntry p seg = some e →
      ((pySplit seg ':').getD 0 "" = "" → e.s = p.s) ∧
      ((pySplit seg ':').getD 1 "" = "" → e.l = p.l) ∧
      ((pySplit seg ':').getD 2 "" = "" → e.f = p.f) ∧
      ((pySplit seg ':').getD 3 "" = "" → e.j = p.j) ∧
      ((pySplit seg ':').getD 4 "" = "" → e.m = p.m)) := by
  obtain ⟨hlen, hstep⟩ := decodeSrcmapGo_spec (pySplit raw ';') initSrcEntry entries h
  exact ⟨by decide, hlen, hstep, updateSrcEntry_inherit⟩

/-- Witness for C3 at the concrete source map `"1:2:0;;3:4:1"`. -/
theorem srcmap_decoder_carry_forward_witness :
    decodeSrcmap "1:2:0;;3:4:1" =
      some [⟨1, 2, 0, "", 0⟩, ⟨1, 2, 0, "", 0⟩, ⟨3, 4, 1, "", 0⟩] ∧
    ([⟨1, 2, 0, "", 0⟩, ⟨1, 2, 0, "", 0⟩, ⟨3, 4, 1, "", 0⟩] : List SrcEntry).length =
      (pySplit "1:2:0;;3:4:1" ';').length :=
  ⟨by decide, (srcmap_decoder_carry_forward "1:2:0;;3:4:1" _ (by decide)).2.1⟩

/-- C4: tuple ABI inputs canonicalize to the comma-joined, parenthesized
recursion over their components, with the array suffix (if any) after
the closing parenthesis; the concrete tuple `[uint256, address]` gives
`(uint256,address)` and its dynamic array gives `(uint256,address)[]`. -/
theorem method_sig_tuple_canonical :
    (∀ (fuel : Nat) (kvs : List (String × J)) (comps : List J),
      List.lookup "type" kvs = some (.jstr "tuple") →
      List.lookup "components" kvs = some (.jarr comps) →
      unparse_input (fuel + 1) (.jobj kvs) = do
        let parts ← eMapM (unparse_input fuel) comps
        pure ("(" ++ pyJoin "," parts ++ ")")) ∧
    (∀ (fuel : Nat) (kvs : List (String × J)) (comps : List J),
      List.lookup "type" kvs = some (.jstr "tuple[]") →
      List.lookup "components" kvs = some (.jarr comps) →
      unparse_input (fuel + 1) (.jobj kvs) = do
        let parts ← eMapM (unparse_input fuel) comps
        pure ("(" ++ pyJoin "," parts ++ ")" ++ "[]")) ∧
    unparse_input 2 (J.jobj [("type", J.jstr "tuple"), ("components", J.jarr
      [J.jobj [("name", J.jstr "a"), ("type", J.jstr "uint256")],
       J.jobj [("name", J.jstr "b"), ("type", J.jstr "address")]])]) =
      .ok "(uint256,address)" ∧
    unparse_input 2 (J.jobj [("type", J.jstr "tuple[]"), ("components", J.jarr
      [J.jobj [("name", J.jstr "a"), ("type", J.jstr "uint256")],
       J.jobj [("name", J.jstr "b"), ("type", J.jstr "address")]])]) =
      .ok "(uint256,address)[]" := by
  refine ⟨?_, ?_, by decide, by decide⟩
  · intro fuel kvs comps ht hc
    have hre : reDotPlusBracket "tuple" = false := by decide
    simp [unparse_input, getKey, ht, hc, getStr, getArr, hre, pure, bind, Except.pure,
      Except.bind]
  · intro fuel kvs comps ht hc
    have hre : reDotPlusBracket "tuple[]" = true := by decide
    have hsplit : pySplit "tuple[]" '[' = ["tuple", "]"] := by decide
    simp [unparse_input, getKey, ht, hc, getStr, getArr, hre, hsplit, pyDropLast, pure,
      bind, Except.pure, Except.bind]

/-- Witness for C4: the general tuple clause applied to the concrete
two-component tuple. -/
theorem method_sig_tuple_canonical_witness :
    List.lookup "type" ([("type", J.jstr "tuple"), ("components", J.jarr
      [J.jobj [("name", J.jstr "a"), ("type", J.jstr "uint256")],
       J.jobj [("name", J.jstr "b"), ("type", J.jstr "address")]])]) =
      some (J.jstr "tuple") ∧
    unparse_input (1 + 1) (J.jobj [("type", J.jstr "tuple"), ("components", J.jarr
      [J.jobj [("name", J.jstr "a"), ("type", J.jstr "uint256")],
       J.jobj [("name", J.jstr "b"), ("type", J.jstr "address")]])]) = (do
      let parts ← eMapM (unparse_input 1)
        [J.jobj [("name", J.jstr "a"), ("type", J.jstr "uint256")],
         J.jobj [("name", J.jstr "b"), ("type", J.jstr "address")]]
      pure ("(" ++ pyJoin "," parts ++ ")")) :=
  ⟨by decide, method_sig_tuple_canonical.1 1 _ _ (by decide) (by decide)⟩

/-- C5: a method with an argument whose type yields no range predicate
(and none that raises) gets no calldata rule: `Method.rule` returns
`ok none`, and in the emitted method sentences the method's production
is present while the rules section contains exactly the rules of the
methods whose `rule` returned `some` — the others are unaffected. -/
theorem no_predicate_method_rule_omitted (c : Contract) (m : Method)
    (hm : m ∈ c.methods)
    (hlen : m.arg_names.length = m.arg_types.length)
    (hok : ∀ p ∈ m.arg_names.zip m.arg_types,
      (_range_predicate (.kvariable p.1) p.2).isOk = true)
    (hnone : ∃ p ∈ m.arg_names.zip m.arg_types,
      _range_predicate (.kvariable p.1) p.2 = .ok none) :
    (∀ contract application_label, m.rule contract application_label = .ok none) ∧
    (∀ sents, c.method_sentences = .ok sents →
      ∃ prods rules,
        eMapM Method.production c.methods = .ok prods ∧
        eMapM (fun mm => mm.rule (.kapply c.klabel []) c.klabel_method) c.methods = .ok rules ∧
        List.Forall₂ (fun mm pr => Method.production mm = .ok pr) c.methods prods ∧
        List.Forall₂ (fun mm r => mm.rule (.kapply c.klabel []) c.klabel_method = .ok r)
          c.methods rules ∧
        (∃ pr, pr ∈ prods ∧ Method.production m = .ok pr ∧ pr ∈ sents) ∧
        sents = KSentence.production "Bytes"
            [.nonTerminal c.sort, .terminal ".", .nonTerminal c.sort_method]
            (some c.klabel_method) :: prods
          ++ rules.filterMap id
          ++ c.methods.map Method.selector_alias_rule) := by
  have hrule := method_rule_none m hlen hok hnone
  refine ⟨hrule, ?_⟩
  intro sents hs
  cases hp : eMapM Method.production c.methods with
  | error e =>
    simp [Contract.method_sentences, hp, pure, bind, Except.pure, Except.bind] at hs
  | ok prods =>
    cases hr : eMapM (fun mm => mm.rule (.kapply c.klabel []) c.klabel_method) c.methods with
    | error e =>
      simp [Contract.method_sentences, hp, hr, pure, bind, Except.pure, Except.bind] at hs
    | ok rules =>
      have hf2p := eMapM_forall₂ Method.production c.methods prods hp
      have hf2r := eMapM_forall₂ _ c.methods rules hr
      have hlenp : c.methods.length = prods.length := List.Forall₂.length_eq hf2p
      have hmlen : 0 < c.methods.length := List.length_pos_of_mem hm
      have hcond : (KSentence.production "Bytes"
            [.nonTerminal c.sort, .terminal ".", .nonTerminal c.sort_method]
            (some c.klabel_method) :: prods
          ++ rules.filterMap id
          ++ c.methods.map Method.selector_alias_rule).length > 1 := by
        simp only [List.cons_append, List.length_cons, List.length_append]
        omega
      simp only [Contract.method_sentences, hp, hr, pure, bind, Except.pure, Except.bind,
        List.cons_append] at hs
      rw [if_pos (by simpa using hcond)] at hs
      cases hs
      obtain ⟨pr, hprmem, hprval⟩ := forall₂_mem_left hf2p m hm
      exact ⟨prods, rules, rfl, rfl, hf2p, hf2r,
        ⟨pr, hprmem, hprval, by simp [hprmem]⟩, by simp⟩

/-- Witness for C5: in `complexArtifact`, building succeeds, `f(mytype)`
is a model method, its rule is `ok none`, and sentence generation
succeeds. -/
theorem no_predicate_method_rule_omitted_witness :
    mkContract "A" complexArtifact false = .ok complexContract ∧
    mfComplex ∈ complexContract.methods ∧
    Method.rule mfComplex (.kapply (Contract.klabel complexContract) [])
      (Contract.klabel_method complexContract) = .ok none ∧
    (Contract.method_sentences complexContract).isOk = true :=
  ⟨by decide, by decide,
   (no_predicate_method_rule_omitted complexContract mfComplex (by decide) (by decide)
      (by decide) (by decide)).1 _ _,
   by decide⟩

/-- C6: on an artifact whose method has a `uint9` argument,
`Contract.__init__` itself completes, and deriving the model's K
sentences fails fatally with the identifiable unsupported-type error
(raised by the base-sort classifier; the range-predicate generator
raises its own identifiable error on `uint9` as well). -/
theorem uint9_construction_fatal :
    (mkContract "A" uint9Artifact false).isOk = true ∧
    Except.bind (mkContract "A" uint9Artifact false) Contract.sentences =
      .error "Unsupported evm base sort type: uint9" ∧
    _range_predicate_uint (.kvariable "V0_x") "uint9" =
      .error "Unsupported range predicate type: uint9" ∧
    _evm_base_sort_int "uint9" = .error "Unsupported evm base sort type: uint9" := by
  decide

/-- C8: the storage-field table keeps, for every label, the slot of its
first occurrence (later duplicates are skipped, never an error), its
labels are unique, and `[{x,0},{x,1}]` yields exactly `x → 0`. -/
theorem storage_fields_first_occurrence_wins (entries : List (String × Int)) (a : String) :
    mkFields [("x", 0), ("x", 1)] = [("x", 0)] ∧
    List.lookup a (mkFields entries) = List.lookup a entries ∧
    ((mkFields entries).map Prod.fst).Nodup := by
  refine ⟨by decide, ?_, mkFieldsAux_nodup entries [] (by simp)⟩
  rw [mkFields, mkFieldsAux_lookup]
  simp [List.lookup, Option.orElse]

/-- C9: `method_by_name` ignores its `name` argument and filters on the
literal `'setUp'`: the outcome is `ok none` when no method is named
`setUp`, `ok (some m)` when exactly `m` is, an error when several are,
and both the value and the success flag are independent of the name
passed in (the name only appears in the error text). -/
theorem method_by_name_searches_setUp (c : Contract) (n₁ n₂ : String) :
    (c.methods.filter (fun m => m.name == "setUp") = [] →
      c.method_by_name n₁ = .ok none) ∧
    (∀ m, c.methods.filter (fun mm => mm.name == "setUp") = [m] →
      c.method_by_name n₁ = .ok (some m)) ∧
    (∀ m₁ m₂ rest, c.methods.filter (fun mm => mm.name == "setUp") = m₁ :: m₂ :: rest →
      c.method_by_name n₁ =
        .error ("Found multiple methods with name " ++ n₁ ++ ", expected at most one")) ∧
    (c.method_by_name n₁).toOption = (c.method_by_name n₂).toOption ∧
    (c.method_by_name n₁).isOk = (c.method_by_name n₂).isOk := by
  cases hf : c.methods.filter (fun m => m.name == "setUp") with
  | nil =>
    refine ⟨fun _ => ?_, fun m hm => absurd hm (by simp),
      fun a b rest hm => absurd hm (by simp), ?_, ?_⟩
    all_goals simp [Contract.method_by_name, hf]
  | cons m₁ tl =>
    cases tl with
    | nil =>
      refine ⟨fun hh => absurd hh (by simp), ?_, fun a b rest hm => absurd hm (by simp),
        ?_, ?_⟩
      · intro m hm
        have hm₁ : m₁ = m := by simpa using hm
        subst hm₁
        simp [Contract.method_by_name, hf]
      · simp [Contract.method_by_name, hf]
      · simp [Contract.method_by_name, hf]
    | cons m₂ tl₂ =>
      refine ⟨fun hh => absurd hh (by simp), fun m hm => absurd hm (by simp), ?_, ?_, ?_⟩
      · intro a b rest hm
        simp [Contract.method_by_name, hf]
      · simp [Contract.method_by_name, hf, Except.toOption]
      · simp [Contract.method_by_name, hf, Except.isOk, Except.toBool]

/-- Witness for C9: `complexContract` has a method named `g` but none
named `setUp`, and `method_by_name "g"` still returns `none`,
identically for any other name. -/
theorem method_by_name_searches_setUp_witness :
    Contract.method_by_name complexContract "g" = .ok none ∧
    (Contract.method_by_name complexContract "g").toOption =
      (Contract.method_by_name complexContract "f").toOption :=
  ⟨(method_by_name_searches_setUp complexContract "g" "f").1 (by decide),
   (method_by_name_searches_setUp complexContract "g" "f").2.2.2.1⟩

/-- C10: every type string ending in `]` is classified without raising:
the integer-sort test is `ok false`, the base sort is the catch-all
`K`, and the range-predicate generator returns `ok none` (no predicate,
not an error) — even for element widths like `uint7[]` or `bytes5[]`
that would be fatal without the array suffix. -/
theorem array_suffix_never_fatal (t : String) (term : KInner)
    (h : pyEndsWith t "]" = true) :
    _evm_base_sort_int t = .ok false ∧
    _evm_base_sort t = .ok "K" ∧
    _range_predicate term t = .ok none := by
  have hlit : ∀ s : String, pyEndsWith s "]" = false → t ≠ s := by
    rintro s hs rfl; rw [h] at hs; cases hs
  have h1 : _evm_base_sort_int t = .ok false := by
    simp [_evm_base_sort_int, h, hlit "address" (by decide), hlit "bool" (by decide),
      pure, bind, Except.pure, Except.bind]
  refine ⟨h1, ?_, ?_⟩
  · simp [_evm_base_sort, h1, hlit "bytes" (by decide), hlit "string" (by decide),
      pure, bind, Except.pure, Except.bind]
  · simp [_range_predicate, _range_predicate_uint, h, hlit "address" (by decide),
      hlit "bool" (by decide), hlit "bytes4" (by decide), hlit "bytes32" (by decide),
      hlit "uint256" (by decide), hlit "int256" (by decide), hlit "bytes" (by decide),
      hlit "string" (by decide), pure, bind, Except.pure, Except.bind]

/-- Witness for C10 at `uint7[]` and `bytes5[]`. -/
theorem array_suffix_never_fatal_witness :
    pyEndsWith "uint7[]" "]" = true ∧
    (_evm_base_sort_int "uint7[]" = .ok false ∧
     _evm_base_sort "uint7[]" = .ok "K" ∧
     _range_predicate (.kvariable "V0_x") "uint7[]" = .ok none) ∧
    (_evm_base_sort_int "bytes5[]" = .ok false ∧
     _evm_base_sort "bytes5[]" = .ok "K" ∧
     _range_predicate (.kvariable "V0_x") "bytes5[]" = .ok none) :=
  ⟨by decide,
   array_suffix_never_fatal "uint7[]" (.kvariable "V0_x") (by decide),
   array_suffix_never_fatal "bytes5[]" (.kvariable "V0_x") (by decide)⟩

theorem pyStrLeChars_total : ∀ (a b : List Char),
    pyStrLeChars a b = true ∨ pyStrLeChars b a = true
  | [], _ => Or.inl rfl
  | _ :: _, [] => Or.inr rfl
  | c₁ :: r₁, c₂ :: r₂ => by
    rcases Nat.lt_trichotomy c₁.toNat c₂.toNat with h | h | h
    · left; simp [pyStrLeChars, h]
    · rcases pyStrLeChars_total r₁ r₂ with ih | ih
      · left; simp [pyStrLeChars, h, ih]
      · right; simp [pyStrLeChars, h.symm, ih]
    · right; simp [pyStrLeChars, h]

theorem pyStrLeChars_trans : ∀ (a b c : List Char),
    pyStrLeChars a b = true → pyStrLeChars b c = true → pyStrLeChars a c = true
  | [], _, _ => by intro _ _; rfl
  | _ :: _, [], _ => by intro h _; simp [pyStrLeChars] at h
  | _ :: _, _ :: _, [] => by intro _ h; simp [pyStrLeChars] at h
  | c₁ :: r₁, c₂ :: r₂, c₃ :: r₃ => by
    intro h₁ h₂
    simp only [pyStrLeChars] at h₁ h₂ ⊢
    rcases Nat.lt_trichotomy c₁.toNat c₂.toNat with ha | ha | ha <;>
      rcases Nat.lt_trichotomy c₂.toNat c₃.toNat with hb | hb | hb <;>
      simp_all <;> try omega
    all_goals exact pyStrLeChars_trans r₁ r₂ r₃ h₁ h₂

theorem char_toNat_inj {a b : Char} (h : a.toNat = b.toNat) : a = b :=
  Char.ofNat_toNat a ▸ Char.ofNat_toNat b ▸ congrArg Char.ofNat h

theorem pyStrLeChars_antisymm : ∀ (a b : List Char),
    pyStrLeChars a b = true → pyStrLeChars b a = true → a = b
  | [], [] => by intro _ _; rfl
  | [], _ :: _ => by intro _ h; simp [pyStrLeChars] at h
  | _ :: _, [] => by intro h _; simp [pyStrLeChars] at h
  | c₁ :: r₁, c₂ :: r₂ => by
    intro h₁ h₂
    simp only [pyStrLeChars] at h₁ h₂
    rcases Nat.lt_trichotomy c₁.toNat c₂.toNat with ha | ha | ha
    · rw [if_neg (by omega), if_pos (by omega)] at h₂; cases h₂
    · rw [if_neg (by omega), if_neg (by omega)] at h₁ h₂
      rw [char_toNat_inj ha, pyStrLeChars_antisymm r₁ r₂ h₁ h₂]
    · rw [if_neg (by omega), if_pos (by omega)] at h₁; cases h₁

theorem pyStrLe_total (a b : String) : pyStrLe a b = true ∨ pyStrLe b a = true :=
  pyStrLeChars_total a.data b.data

theorem pyStrLe_trans {a b c : String} (h₁ : pyStrLe a b = true) (h₂ : pyStrLe b c = true) :
    pyStrLe a c = true :=
  pyStrLeChars_trans a.data b.data c.data h₁ h₂

theorem pyStrLe_antisymm {a b : String} (h₁ : pyStrLe a b = true) (h₂ : pyStrLe b a = true) :
    a = b := by
  cases a; cases b
  exact congrArg String.mk (pyStrLeChars_antisymm _ _ h₁ h₂)

theorem pySortedInsert_perm {α : Type} (le : α → α → Bool) (x : α) :
    ∀ (l : List α), List.Perm (pySortedInsert le x l) (x :: l)
  | [] => List.Perm.refl _
  | y :: ys => by
    simp only [pySortedInsert]
    split
    · exact List.Perm.refl _
    · exact ((pySortedInsert_perm le x ys).cons y).trans (List.Perm.swap x y ys)

theorem pySorted_perm {α : Type} (le : α → α → Bool) :
    ∀ (l : List α), List.Perm (pySorted le l) l
  | [] => List.Perm.refl _
  | x :: xs =>
    (pySortedInsert_perm le x (pySorted le xs)).trans ((pySorted_perm le xs).cons x)

theorem pySortedInsert_pairwise {α : Type} (le : α → α → Bool)
    (htot : ∀ a b, le a b = true ∨ le b a = true)
    (htrans : ∀ a b c, le a b = true → le b c = true → le a c = true) (x : α) :
    ∀ (l : List α), l.Pairwise (fun a b => le a b = true) →
      (pySortedInsert le x l).Pairwise (fun a b => le a b = true)
  | [], _ => by simp [pySortedInsert]
  | y :: ys, hl => by
    simp only [pySortedInsert]
    obtain ⟨hy, hys⟩ := List.pairwise_cons.mp hl
    split
    case isTrue hxy =>
      refine List.pairwise_cons.mpr ⟨?_, hl⟩
      intro z hz
      rcases List.mem_cons.mp hz with rfl | hz
      · exact hxy
      · exact htrans x y z hxy (hy z hz)
    case isFalse hxy =>
      have hyx : le y x = true := by
        rcases htot x y with h | h
        · exact absurd h hxy
        · exact h
      refine List.pairwise_cons.mpr ⟨?_, pySortedInsert_pairwise le htot htrans x ys hys⟩
      intro z hz
      have hz' := (pySortedInsert_perm le x ys).mem_iff.mp hz
      rcases List.mem_cons.mp hz' with rfl | hz'
      · exact hyx
      · exact hy z hz'

theorem pySorted_pairwise {α : Type} (le : α → α → Bool)
    (htot : ∀ a b, le a b = true ∨ le b a = true)
    (htrans : ∀ a b c, le a b = true → le b c = true → le a c = true) :
    ∀ (l : List α), (pySorted le l).Pairwise (fun a b => le a b = true)
  | [] => List.Pairwise.nil
  | x :: xs =>
    pySortedInsert_pairwise le htot htrans x (pySorted le xs)
      (pySorted_pairwise le htot htrans xs)

theorem sortK_eq_of_perm (l₁ l₂ : List (String × J))
    (hnd : (l₁.map Prod.fst).Nodup) (hperm : List.Perm l₁ l₂) :
    pySorted (fun a b => pyStrLe a.1 b.1) l₁ = pySorted (fun a b => pyStrLe a.1 b.1) l₂ := by
  have hnd₂ : (l₂.map Prod.fst).Nodup := ((hperm.map Prod.fst).nodup_iff).mp hnd
  have htot : ∀ a b : String × J, pyStrLe a.1 b.1 = true ∨ pyStrLe b.1 a.1 = true :=
    fun a b => pyStrLe_total _ _
  have htrans : ∀ a b c : String × J, pyStrLe a.1 b.1 = true → pyStrLe b.1 c.1 = true →
      pyStrLe a.1 c.1 = true := fun _ _ _ h₁ h₂ => pyStrLe_trans h₁ h₂
  have hp₁ := pySorted_pairwise _ htot htrans l₁
  have hp₂ := pySorted_pairwise _ htot htrans l₂
  have hnds₁ : ((pySorted (fun a b => pyStrLe a.1 b.1) l₁).map Prod.fst).Nodup :=
    ((pySorted_perm _ l₁).map Prod.fst).nodup_iff.mpr hnd
  have hnds₂ : ((pySorted (fun a b => pyStrLe a.1 b.1) l₂).map Prod.fst).Nodup :=
    ((pySorted_perm _ l₂).map Prod.fst).nodup_iff.mpr hnd₂
  have hne₁ : (pySorted (fun a b => pyStrLe a.1 b.1) l₁).Pairwise (fun a b => a.1 ≠ b.1) :=
    List.pairwise_map.mp hnds₁
  have hne₂ : (pySorted (fun a b => pyStrLe a.1 b.1) l₂).Pairwise (fun a b => a.1 ≠ b.1) :=
    List.pairwise_map.mp hnds₂
  have hs₁ : List.Sorted (fun a b : String × J => pyStrLe a.1 b.1 = true ∧ a.1 ≠ b.1)
      (pySorted (fun a b => pyStrLe a.1 b.1) l₁) := hp₁.and hne₁
  have hs₂ : List.Sorted (fun a b : String × J => pyStrLe a.1 b.1 = true ∧ a.1 ≠ b.1)
      (pySorted (fun a b => pyStrLe a.1 b.1) l₂) := hp₂.and hne₂
  haveI : IsAntisymm (String × J) (fun a b => pyStrLe a.1 b.1 = true ∧ a.1 ≠ b.1) := by
    constructor
    rintro a b ⟨hab, hne⟩ ⟨hba, -⟩
    exact absurd (pyStrLe_antisymm hab hba) hne
  exact List.eq_of_perm_of_sorted
    (((pySorted_perm _ l₁).trans hperm).trans (pySorted_perm _ l₂).symm) hs₁ hs₂

theorem J.size_pos : ∀ v : J, 1 ≤ J.size v := by
  intro v
  cases v <;> simp [J.size]

theorem takeWhile_marks (n : Nat) (c : Char) (hc : (c == '1') = false) (r : List Char) :
    (List.replicate n '1' ++ c :: r).takeWhile (fun x => x == '1') = List.replicate n '1' ∧
    (List.replicate n '1' ++ c :: r).dropWhile (fun x => x == '1') = c :: r := by
  induction n with
  | zero => simp [List.takeWhile_cons, List.dropWhile_cons, hc]
  | succ k ih =>
    simp only [List.replicate_succ, List.cons_append, List.takeWhile_cons,
      List.dropWhile_cons]
    simp [ih]

theorem take_len_append : ∀ (s r : List Char), (s ++ r).take s.length = s
  | [], r => by simp
  | c :: s, r => by simp [take_len_append s r]

theorem drop_len_append : ∀ (s r : List Char), (s ++ r).drop s.length = r
  | [], r => by simp
  | c :: s, r => by simp [drop_len_append s r]

mutual

theorem parseJ_serJ : ∀ (v : J) (fuel : Nat) (r : List Char), J.size v ≤ fuel →
    parseJ fuel (serJ v ++ r) = some (v, r)
  | .null, 0, r, h => by simp [J.size] at h
  | .null, fuel + 1, r, h => by simp [serJ, parseJ]
  | .jbool true, 0, r, h => by simp [J.size] at h
  | .jbool true, fuel + 1, r, h => by simp [serJ, parseJ]
  | .jbool false, 0, r, h => by simp [J.size] at h
  | .jbool false, fuel + 1, r, h => by simp [serJ, parseJ]
  | .jint i, 0, r, h => by simp [J.size] at h
  | .jint i, fuel + 1, r, h => by
    have hm := takeWhile_marks i.natAbs 'e' (by decide) r
    by_cases hi : i < 0
    · simp only [serJ, if_pos hi, List.cons_append, List.append_assoc, List.singleton_append,
        parseJ, hm.1, hm.2, List.length_replicate]
      simp [hi]
      rw [abs_of_neg hi]
      ring
    · simp only [serJ, if_neg hi, List.cons_append, List.append_assoc, List.singleton_append,
        parseJ, hm.1, hm.2, List.length_replicate]
      simp
      omega
  | .jstr s, 0, r, h => by simp [J.size] at h
  | .jstr s, fuel + 1, r, h => by
    obtain ⟨cs⟩ := s
    have hm := takeWhile_marks cs.length ':' (by decide) (cs ++ r)
    simp only [serJ, List.cons_append, List.append_assoc, List.cons_append, parseJ,
      hm.1, hm.2, List.length_replicate]
    simp [take_len_append, drop_len_append]
  | .jarr xs, 0, r, h => by simp [J.size] at h
  | .jarr xs, fuel + 1, r, h => by
    have hsz : J.sizeArr xs ≤ fuel := by simp [J.size] at h; omega
    have hm := takeWhile_marks xs.length ':' (by decide) (serArr xs ++ r)
    simp only [serJ, List.cons_append, List.append_assoc, List.cons_append, parseJ,
      hm.1, hm.2, List.length_replicate, parseArrN_serArr xs fuel r hsz]
  | .jobj kvs, 0, r, h => by simp [J.size] at h
  | .jobj kvs, fuel + 1, r, h => by
    have hsz : J.sizeObj kvs ≤ fuel := by simp [J.size] at h; omega
    have hm := takeWhile_marks kvs.length ':' (by decide) (serObj kvs ++ r)
    simp only [serJ, List.cons_append, List.append_assoc, List.cons_append, parseJ,
      hm.1, hm.2, List.length_replicate, parseObjN_serObj kvs fuel r hsz]

theorem parseArrN_serArr : ∀ (xs : List J) (fuel : Nat) (r : List Char),
    J.sizeArr xs ≤ fuel → parseArrN fuel xs.length (serArr xs ++ r) = some (xs, r)
  | [], fuel, r, h => by simp [serArr, parseArrN]
  | x :: xs, fuel, r, h => by
    have hx : J.size x ≤ fuel := by simp [J.sizeArr] at h; omega
    have hxs : J.sizeArr xs ≤ fuel := by simp [J.sizeArr] at h; omega
    simp only [List.length_cons, serArr, List.append_assoc, parseArrN,
      parseJ_serJ x fuel (serArr xs ++ r) hx, parseArrN_serArr xs fuel r hxs]

theorem parseObjN_serObj : ∀ (kvs : List (String × J)) (fuel : Nat) (r : List Char),
    J.sizeObj kvs ≤ fuel → parseObjN fuel kvs.length (serObj kvs ++ r) = some (kvs, r)
  | [], fuel, r, h => by simp [serObj, parseObjN]
  | (k, v) :: kvs, fuel, r, h => by
    have hv : J.size v ≤ fuel := by simp [J.sizeObj] at h; omega
    have hkvs : J.sizeObj kvs ≤ fuel := by simp [J.sizeObj] at h; omega
    obtain ⟨cs⟩ := k
    have hm := takeWhile_marks cs.length ':' (by decide) (cs ++ (serJ v ++ (serObj kvs ++ r)))
    simp only [List.length_cons, serObj, List.cons_append, List.append_assoc, parseObjN,
      hm.1, hm.2, List.length_replicate]
    simp only [take_len_append, drop_len_append,
      parseJ_serJ v fuel (serObj kvs ++ r) hv, parseObjN_serObj kvs fuel r hkvs]

end

theorem serJ_injective {a b : J} (h : serJ a = serJ b) : a = b := by
  have ha := parseJ_serJ a (J.size a + J.size b) [] (by omega)
  have hb := parseJ_serJ b (J.size a + J.size b) [] (by omega)
  rw [h] at ha
  rw [ha] at hb
  exact (Prod.mk.injEq _ _ _ _).mp (Option.some_inj.mp hb) |>.1

theorem lookupJ_some_mem {k : String} {v : J} :
    ∀ {l : List (String × J)}, List.lookup k l = some v → (k, v) ∈ l := by
  intro l h
  induction l with
  | nil => simp [List.lookup] at h
  | cons kv rest ih =>
    obtain ⟨k', v'⟩ := kv
    by_cases hk : k = k'
    · subst hk
      simp [List.lookup] at h
      simp [h]
    · simp only [List.lookup, beq_false_of_ne hk] at h
      exact List.mem_cons_of_mem _ (ih h)

theorem nodup_lookupJ {k : String} {v : J} :
    ∀ {l : List (String × J)}, (l.map Prod.fst).Nodup → (k, v) ∈ l →
      List.lookup k l = some v := by
  intro l hnd hm
  induction l with
  | nil => cases hm
  | cons kv rest ih =>
    obtain ⟨k', v'⟩ := kv
    simp only [List.map_cons, List.nodup_cons] at hnd
    rcases List.mem_cons.mp hm with heq | hm'
    · cases heq
      simp [List.lookup]
    · have hk : k ≠ k' := by
        rintro rfl
        exact hnd.1 (List.mem_map.mpr ⟨(k, v), hm', rfl⟩)
      simp only [List.lookup, beq_false_of_ne hk]
      exact ih hnd.2 hm'

theorem sizeArr_mem {x : J} : ∀ {xs : List J}, x ∈ xs → J.size x < J.sizeArr xs := by
  intro xs hm
  induction xs with
  | nil => cases hm
  | cons y ys ih =>
    rcases List.mem_cons.mp hm with rfl | hm'
    · simp [J.sizeArr]; omega
    · have := ih hm'
      simp [J.sizeArr] at *
      omega

theorem sizeObj_mem {k : String} {v : J} :
    ∀ {kvs : List (String × J)}, (k, v) ∈ kvs → J.size v < J.sizeObj kvs := by
  intro kvs hm
  induction kvs with
  | nil => cases hm
  | cons kv rest ih =>
    rcases List.mem_cons.mp hm with rfl | hm'
    · simp [J.sizeObj]; omega
    · have := ih hm'
      simp [J.sizeObj] at *
      omega

theorem keyMem_iff (k : String) : ∀ (l : List (String × J)),
    keyMem k l = true ↔ k ∈ l.map Prod.fst := by
  intro l
  induction l with
  | nil => simp [keyMem]
  | cons kv rest ih => simp [keyMem, ih]

theorem nodupKeys_iff : ∀ (l : List (String × J)),
    nodupKeys l = true ↔ (l.map Prod.fst).Nodup := by
  intro l
  induction l with
  | nil => simp [nodupKeys]
  | cons kv rest ih =>
    simp only [nodupKeys, Bool.and_eq_true, Bool.not_eq_true', List.map_cons,
      List.nodup_cons, ih]
    constructor
    · rintro ⟨hc, hnd⟩
      refine ⟨?_, hnd⟩
      intro hmem
      rw [← keyMem_iff kv.1 rest] at hmem
      rw [hmem] at hc
      cases hc
    · rintro ⟨hmem, hnd⟩
      refine ⟨?_, hnd⟩
      cases hkm : keyMem kv.1 rest
      · rfl
      · exact absurd ((keyMem_iff kv.1 rest).mp hkm) hmem

theorem goodArr_mem {x : J} : ∀ {xs : List J}, goodArr xs = true → x ∈ xs → goodJ x = true := by
  intro xs hg hm
  induction xs with
  | nil => cases hm
  | cons y ys ih =>
    simp only [goodArr, Bool.and_eq_true] at hg
    rcases List.mem_cons.mp hm with rfl | hm'
    · exact hg.1
    · exact ih hg.2 hm'

theorem goodObj_mem {k : String} {v : J} :
    ∀ {kvs : List (String × J)}, goodObj kvs = true → (k, v) ∈ kvs → goodJ v = true := by
  intro kvs hg hm
  induction kvs with
  | nil => cases hm
  | cons kv rest ih =>
    simp only [goodObj, Bool.and_eq_true] at hg
    rcases List.mem_cons.mp hm with rfl | hm'
    · exact hg.1
    · exact ih hg.2 hm'

theorem canonArr_map : ∀ (xs : List J), canonArr xs = xs.map canonJ
  | [] => rfl
  | x :: xs => by simp [canonArr, canonArr_map xs]

theorem canonObj_map : ∀ (kvs : List (String × J)),
    canonObj kvs = kvs.map (fun kv => (kv.1, canonJ kv.2))
  | [] => rfl
  | kv :: rest => by simp [canonObj, canonObj_map rest]

theorem canonObj_keys (kvs : List (String × J)) :
    (canonObj kvs).map Prod.fst = kvs.map Prod.fst := by
  rw [canonObj_map, List.map_map]
  rfl

theorem canonObj_length (kvs : List (String × J)) :
    (canonObj kvs).length = kvs.length := by
  rw [canonObj_map, List.length_map]

theorem objSub_forall : ∀ (l kvs₂ : List (String × J)), ObjSub l kvs₂ →
    ∀ k v, (k, v) ∈ l → ∃ v₂, List.lookup k kvs₂ = some v₂ ∧ StructEquiv v v₂ := by
  intro l
  induction l with
  | nil => intro kvs₂ _ k v hm; cases hm
  | cons kv rest ih =>
    intro kvs₂ h k v hm
    cases h with
    | cons hlk heq hrest =>
      rcases List.mem_cons.mp hm with heq' | hm'
      · cases heq'
        exact ⟨_, hlk, heq⟩
      · exact ih kvs₂ hrest k v hm'

theorem objSub_of_forall : ∀ {l kvs₂ : List (String × J)},
    (∀ k v, (k, v) ∈ l → ∃ v₂, List.lookup k kvs₂ = some v₂ ∧ StructEquiv v v₂) →
    ObjSub l kvs₂ := by
  intro l kvs₂ h
  induction l with
  | nil => exact ObjSub.nil kvs₂
  | cons kv rest ih =>
    obtain ⟨k, v⟩ := kv
    obtain ⟨v₂, hlk, heq⟩ := h k v (List.mem_cons_self _ _)
    exact ObjSub.cons hlk heq (ih (fun k' v' hm => h k' v' (List.mem_cons_of_mem _ hm)))

theorem keys_eq_of_subset_len {l₁ l₂ : List String} (h₁ : l₁.Nodup) (h₂ : l₂.Nodup)
    (hsub : ∀ k, k ∈ l₁ → k ∈ l₂) (hlen : l₁.length = l₂.length) :
    ∀ k, k ∈ l₁ ↔ k ∈ l₂ := by
  have hfs : l₁.toFinset ⊆ l₂.toFinset := by
    intro k hk
    simpa using hsub k (by simpa using hk)
  have hcard : l₂.toFinset.card ≤ l₁.toFinset.card := by
    rw [List.toFinset_card_of_nodup h₁, List.toFinset_card_of_nodup h₂]
    omega
  have heq := Finset.eq_of_subset_of_card_le hfs hcard
  intro k
  constructor
  · exact hsub k
  · intro hk
    have : k ∈ l₂.toFinset := by simpa using hk
    rw [← heq] at this
    simpa using this

theorem mem_keys_exists {k : String} {l : List (String × J)}
    (h : k ∈ l.map Prod.fst) : ∃ v, (k, v) ∈ l := by
  obtain ⟨⟨k', v⟩, hm, hk⟩ := List.mem_map.mp h
  cases hk
  exact ⟨v, hm⟩

theorem structEquiv_canon_eq : ∀ (n : Nat) (a b : J), J.size a ≤ n →
    goodJ a = true → goodJ b = true → StructEquiv a b → canonJ a = canonJ b := by
  intro n
  induction n with
  | zero =>
    intro a b hsz _ _ _
    have := J.size_pos a
    omega
  | succ n ih =>
    intro a b hsz ha hb heq
    cases heq with
    | null => rfl
    | jbool => rfl
    | jint => rfl
    | jstr => rfl
    | jarr xs ys hxy =>
      simp only [canonJ, J.jarr.injEq]
      simp only [J.size] at hsz
      simp only [goodJ] at ha hb
      have haux : ∀ (xs ys : List J), J.sizeArr xs ≤ n → goodArr xs = true →
          goodArr ys = true → ArrEquiv xs ys → canonArr xs = canonArr ys := by
        intro xs
        induction xs with
        | nil =>
          intro ys _ _ _ h
          cases h
          rfl
        | cons x xs' ihl =>
          intro ys hsz' hga hgb h
          cases h with
          | cons hx hrest =>
            simp only [canonArr, List.cons.injEq]
            simp only [J.sizeArr] at hsz'
            simp only [goodArr, Bool.and_eq_true] at hga hgb
            exact ⟨ih x _ (by omega) hga.1 hgb.1 hx, ihl _ (by omega) hga.2 hgb.2 hrest⟩
      exact haux xs ys (by omega) ha hb hxy
    | jobj kvs₁ kvs₂ hlen hsub =>
      simp only [canonJ, J.jobj.injEq]
      simp only [J.size] at hsz
      simp only [goodJ, Bool.and_eq_true] at ha hb
      have hnd₁ : (kvs₁.map Prod.fst).Nodup := (nodupKeys_iff _).mp ha.1
      have hnd₂ : (kvs₂.map Prod.fst).Nodup := (nodupKeys_iff _).mp hb.1
      have hcnd₁ : ((canonObj kvs₁).map Prod.fst).Nodup := by rw [canonObj_keys]; exact hnd₁
      have hcnd₂ : ((canonObj kvs₂).map Prod.fst).Nodup := by rw [canonObj_keys]; exact hnd₂
      -- forward transport of one canonicalized entry
      have hstep : ∀ k v, (k, v) ∈ kvs₁ → ∃ v₂, (k, v₂) ∈ kvs₂ ∧ canonJ v = canonJ v₂ := by
        intro k v hm
        obtain ⟨v₂, hlk, hvv⟩ := objSub_forall kvs₁ kvs₂ hsub k v hm
        have hm₂ := lookupJ_some_mem hlk
        have hszv : J.size v ≤ n := by
          have := sizeObj_mem hm
          omega
        exact ⟨v₂, hm₂, ih v v₂ hszv (goodObj_mem ha.2 hm) (goodObj_mem hb.2 hm₂) hvv⟩
      -- key sets are equal
      have hkeys : ∀ k, k ∈ kvs₁.map Prod.fst ↔ k ∈ kvs₂.map Prod.fst := by
        apply keys_eq_of_subset_len hnd₁ hnd₂
        · intro k hk
          obtain ⟨v, hm⟩ := mem_keys_exists hk
          obtain ⟨v₂, hm₂, -⟩ := hstep k v hm
          exact List.mem_map.mpr ⟨(k, v₂), hm₂, rfl⟩
        · simpa using hlen
      -- canonicalized entry lists are permutations
      have hperm : List.Perm (canonObj kvs₁) (canonObj kvs₂) := by
        rw [List.perm_ext_iff_of_nodup (hcnd₁.of_map _) (hcnd₂.of_map _)]
        intro e
        rw [canonObj_map, canonObj_map]
        constructor
        · intro he
          obtain ⟨⟨k, v⟩, hm, hke⟩ := List.mem_map.mp he
          obtain ⟨v₂, hm₂, hcv⟩ := hstep k v hm
          refine List.mem_map.mpr ⟨(k, v₂), hm₂, ?_⟩
          rw [← hke]
          simp [hcv]
        · intro he
          obtain ⟨⟨k, v₂⟩, hm₂, hke⟩ := List.mem_map.mp he
          have hk₁ : k ∈ kvs₁.map Prod.fst :=
            (hkeys k).mpr (List.mem_map.mpr ⟨(k, v₂), hm₂, rfl⟩)
          obtain ⟨v, hm⟩ := mem_keys_exists hk₁
          obtain ⟨v₂', hlk', hvv⟩ := objSub_forall kvs₁ kvs₂ hsub k v hm
          have hv₂ : v₂' = v₂ := by
            rw [nodup_lookupJ hnd₂ hm₂] at hlk'
            exact (Option.some_inj.mp hlk').symm
          subst hv₂
          have hszv : J.size v ≤ n := by
            have := sizeObj_mem hm
            omega
          have hcv := ih v v₂' hszv (goodObj_mem ha.2 hm) (goodObj_mem hb.2 hm₂) hvv
          refine List.mem_map.mpr ⟨(k, v), hm, ?_⟩
          rw [← hke]
          simp [hcv]
      exact sortK_eq_of_perm _ _ hcnd₁ hperm

theorem canon_eq_structEquiv : ∀ (n : Nat) (a b : J), J.size a ≤ n →
    goodJ a = true → goodJ b = true → canonJ a = canonJ b → StructEquiv a b := by
  intro n
  induction n with
  | zero =>
    intro a b hsz _ _ _
    have := J.size_pos a
    omega
  | succ n ih =>
    intro a b hsz ha hb hc
    cases a with
    | null =>
      cases b <;> try (simp [canonJ] at hc ; done)
      exact .null
    | jbool x =>
      cases b <;> try (simp [canonJ] at hc ; done)
      case jbool y =>
        simp only [canonJ, J.jbool.injEq] at hc
        subst hc
        exact .jbool x
    | jint x =>
      cases b <;> try (simp [canonJ] at hc ; done)
      case jint y =>
        simp only [canonJ, J.jint.injEq] at hc
        subst hc
        exact .jint x
    | jstr x =>
      cases b <;> try (simp [canonJ] at hc ; done)
      case jstr y =>
        simp only [canonJ, J.jstr.injEq] at hc
        subst hc
        exact .jstr x
    | jarr xs =>
      cases b <;> try (simp [canonJ] at hc ; done)
      case jarr ys =>
        simp only [canonJ, J.jarr.injEq] at hc
        simp only [goodJ] at ha hb
        simp only [J.size] at hsz
        refine .jarr xs ys ?_
        have haux : ∀ (xs ys : List J), J.sizeArr xs ≤ n → goodArr xs = true →
            goodArr ys = true → canonArr xs = canonArr ys → ArrEquiv xs ys := by
          intro xs
          induction xs with
          | nil =>
            intro ys _ _ _ hc'
            cases ys with
            | nil => exact .nil
            | cons y ys' => simp [canonArr] at hc'
          | cons x xs' ihl =>
            intro ys hsz' hga hgb hc'
            cases ys with
            | nil => simp [canonArr] at hc'
            | cons y ys' =>
              simp only [canonArr, List.cons.injEq] at hc'
              simp only [J.sizeArr] at hsz'
              simp only [goodArr, Bool.and_eq_true] at hga hgb
              exact .cons (ih x y (by omega) hga.1 hgb.1 hc'.1)
                (ihl ys' (by omega) hga.2 hgb.2 hc'.2)
        exact haux xs ys (by omega) ha hb hc
    | jobj kvs₁ =>
      cases b <;> try (simp [canonJ] at hc ; done)
      case jobj kvs₂ =>
        simp only [canonJ, J.jobj.injEq] at hc
        simp only [goodJ, Bool.and_eq_true] at ha hb
        simp only [J.size] at hsz
        have hnd₂ : (kvs₂.map Prod.fst).Nodup := (nodupKeys_iff _).mp hb.1
        have hperm : List.Perm (canonObj kvs₁) (canonObj kvs₂) := by
          have h₁ := (pySorted_perm (fun a b => pyStrLe a.1 b.1) (canonObj kvs₁)).symm
          have h₂ := pySorted_perm (fun a b => pyStrLe a.1 b.1) (canonObj kvs₂)
          rw [hc] at h₁
          exact h₁.trans h₂
        have hlen : kvs₁.length = kvs₂.length := by
          have := hperm.length_eq
          rwa [canonObj_length, canonObj_length] at this
        refine .jobj kvs₁ kvs₂ hlen (objSub_of_forall ?_)
        intro k v hm
        have hmem : (k, canonJ v) ∈ canonObj kvs₂ := by
          apply hperm.mem_iff.mp
          rw [canonObj_map]
          exact List.mem_map.mpr ⟨(k, v), hm, rfl⟩
        rw [canonObj_map] at hmem
        obtain ⟨⟨k', v₂⟩, hm₂, hke⟩ := List.mem_map.mp hmem
        have hkk : k' = k := congrArg Prod.fst hke
        have hcv : canonJ v₂ = canonJ v := congrArg Prod.snd hke
        subst hkk
        refine ⟨v₂, nodup_lookupJ hnd₂ hm₂, ?_⟩
        have hszv : J.size v ≤ n := by
          have := sizeObj_mem hm
          omega
        exact ih v v₂ hszv (goodObj_mem ha.2 hm) (goodObj_mem hb.2 hm₂) hcv.symm


/-- C7 (counterexample): the digest is a function of the contract name
as well as the artifact JSON — two models built from the same
(structurally identical) artifact JSON but different names have
different digests, so the claim as stated is false. -/
theorem digest_depends_on_name :
    contractA.contract_json = contractB.contract_json ∧
    StructEquiv contractA.contract_json contractB.contract_json ∧
    Contract.digest contractA ≠ Contract.digest contractB :=
  ⟨rfl, StructEquiv.null, by decide⟩

/-- C7 (amended): for contracts with the same name, the digest is a
deterministic function of the canonicalized artifact JSON: two models
whose artifact JSONs are structurally identical (equal as Python JSON
documents) have equal digests, and any content change to the artifact
changes the digest — the equality is exact. -/
theorem digest_same_name_iff_structEquiv (c₁ c₂ : Contract) (hname : c₁.name = c₂.name)
    (h₁ : goodJ c₁.contract_json = true) (h₂ : goodJ c₂.contract_json = true) :
    Contract.digest c₁ = Contract.digest c₂ ↔
      StructEquiv c₁.contract_json c₂.contract_json := by
  unfold Contract.digest hash_str json_dumps_sorted
  rw [hname]
  constructor
  · intro h
    have hdata := congrArg String.data h
    simp only [String.data_append] at hdata
    rw [List.append_assoc, List.append_assoc] at hdata
    have hser : serJ (canonJ c₁.contract_json) = serJ (canonJ c₂.contract_json) :=
      List.append_cancel_left (List.append_cancel_left hdata)
    exact canon_eq_structEquiv (J.size c₁.contract_json) _ _ le_rfl h₁ h₂
      (serJ_injective hser)
  · intro h
    have hcanon := structEquiv_canon_eq (J.size c₁.contract_json) _ _ le_rfl h₁ h₂ h
    rw [hcanon]

/-- Witness for C7 at a concrete one-entry object artifact (two models
differing in an unhashed field). -/
theorem digest_same_name_iff_structEquiv_witness :
    Contract.digest ⟨"A", J.jobj [("k", J.jint 1)], J.null, J.null, "", none, [], []⟩ =
      Contract.digest ⟨"A", J.jobj [("k", J.jint 1)], J.null, J.null, "xx", none, [], []⟩ ∧
    StructEquiv (J.jobj [("k", J.jint 1)]) (J.jobj [("k", J.jint 1)]) :=
  ⟨by decide,
   (digest_same_name_iff_structEquiv
      ⟨"A", J.jobj [("k", J.jint 1)], J.null, J.null, "", none, [], []⟩
      ⟨"A", J.jobj [("k", J.jint 1)], J.null, J.null, "xx", none, [], []⟩
      rfl (by decide) (by decide)).mp (by decide)⟩
